import Mathlib

/-!
Verification of the Check10 engine: a shallow embedding of the game rules
(gameLogic.js), the Zobrist hasher (zobrist.js) and the search engine
(server.js), together with theorems settling the specification claims.

Conventions of the embedding:
* JS `number` score arithmetic is modelled by `Val`, a rational extended with
  the infinities and NaN, with JS comparison/Math.max/Math.min semantics.
* the 8x8 board is a function `Fin 8 → Fin 8 → Option Piece`; JS's in-place
  mutation of fresh deep copies is modelled by pure updates (a separate
  heap-based model `simulateFullMoveH` is used for the frame/aliasing claim).
* the process-global Zobrist table of `Math.random` keys is a parameter
  `ZTable`; the wall clock is a parameter `timer : Nat → Bool` consulted once
  per `Date.now()` budget check; the `Math.random()` draw used for the initial
  fallback move is a parameter `pick : Nat` reduced modulo the move count.
-/

namespace Check10

/-- Piece colors. -/
inductive Color where
  | white
  | black
deriving DecidableEq, Repr

/-- The opposing color (`piece.color === 'white' ? 'black' : 'white'`). -/
def Color.other : Color → Color
  | .white => .black
  | .black => .white

/-- A piece `{color, number, promoted}` as stored in a board square. -/
structure Piece where
  color : Color
  number : Nat
  promoted : Bool
deriving DecidableEq, Repr

/-- The 8x8 board of optional pieces. -/
def Board := Fin 8 → Fin 8 → Option Piece

/-- The all-empty board (used as a placeholder on unreachable paths). -/
def emptyBoard : Board := fun _ _ => none

/-- Functional update of one board square. -/
def boardSet (b : Board) (r c : Fin 8) (v : Option Piece) : Board :=
  fun r' c' => if r' = r ∧ c' = c then v else b r' c'

/-- All 64 squares in row-major order, mirroring the nested `for` loops
`for r in 0..7, for c in 0..7`. -/
def boardSquares : List (Fin 8 × Fin 8) :=
  (List.finRange 8).flatMap fun r => (List.finRange 8).map fun c => (r, c)

theorem mem_boardSquares (rc : Fin 8 × Fin 8) : rc ∈ boardSquares := by
  revert rc
  decide

/-- Board equality decided square by square (kernel-reducible, unlike the
generic function-space instance). -/
instance : DecidableEq Board := fun a b =>
  decidable_of_iff ((boardSquares.all fun rc => decide (a rc.1 rc.2 = b rc.1 rc.2)) = true)
    (by
      rw [List.all_eq_true]
      constructor
      · intro h
        funext r c
        exact of_decide_eq_true (h (r, c) (mem_boardSquares _))
      · intro h rc _
        rw [h]
        exact decide_eq_true rfl)

/-- Clamp an integer to a board coordinate, `none` when out of `[0,8)`.
Models the bound checks `newRow >= 0 && newRow < 8` (and likewise for
columns) performed on JS arithmetic that may leave the board. -/
def toFin8 (i : Int) : Option (Fin 8) :=
  if h : 0 ≤ i ∧ i < 8 then some ⟨i.toNat, by omega⟩ else none

/-- `getValidMovesOnBoard(row, col, boardState, pieceColor)`: the single-step
forward / diagonal-forward destinations into empty squares, in source order
(straight first, then deltaCol = -1, then +1). -/
def getValidMovesOnBoard (row col : Fin 8) (boardState : Board) (pieceColor : Color) :
    List (Fin 8 × Fin 8) :=
  let direction : Int := if pieceColor = .white then -1 else 1
  match toFin8 ((row.val : Int) + direction) with
  | none => []
  | some newRow =>
    (if boardState newRow col = none then [(newRow, col)] else []) ++
    ([(-1 : Int), 1].flatMap fun deltaCol =>
      match toFin8 ((col.val : Int) + deltaCol) with
      | none => []
      | some newCol => if boardState newRow newCol = none then [(newRow, newCol)] else [])

/-- `getValidMoves(row, col)` on a given board: reads the piece's own color
(empty square yields no moves). -/
def getValidMoves (row col : Fin 8) (board : Board) : List (Fin 8 × Fin 8) :=
  match board row col with
  | none => []
  | some piece => getValidMovesOnBoard row col board piece.color

/-- A move record `{fromRow, fromCol, toRow, toCol, piece}` as produced by the
move generator (the piece snapshot is used for hashing and move ordering). -/
structure Move where
  fromRow : Fin 8
  fromCol : Fin 8
  toRow : Fin 8
  toCol : Fin 8
  piece : Piece
deriving DecidableEq, Repr

/-- `getAllPossibleMovesForPlayer(playerColor)` over a given board: row-major
scan collecting every move of each piece of the given color. -/
def getAllPossibleMovesForPlayer (playerColor : Color) (board : Board) : List Move :=
  boardSquares.flatMap fun rc =>
    match board rc.1 rc.2 with
    | some piece =>
      if piece.color = playerColor then
        (getValidMoves rc.1 rc.2 board).map fun mv =>
          { fromRow := rc.1, fromCol := rc.2, toRow := mv.1, toCol := mv.2, piece := piece }
      else []
    | none => []

/-- `getAllPossibleMovesForPlayerOnBoard(playerColor, boardState)`: same scan
but generating via `getValidMovesOnBoard` with the piece's color. -/
def getAllPossibleMovesForPlayerOnBoard (playerColor : Color) (boardState : Board) : List Move :=
  boardSquares.flatMap fun rc =>
    match boardState rc.1 rc.2 with
    | some piece =>
      if piece.color = playerColor then
        (getValidMovesOnBoard rc.1 rc.2 boardState piece.color).map fun mv =>
          { fromRow := rc.1, fromCol := rc.2, toRow := mv.1, toCol := mv.2, piece := piece }
      else []
    | none => []

/-- `hasValidMoves(playerColor)`: some own piece has at least one move. -/
def hasValidMoves (playerColor : Color) (board : Board) : Bool :=
  boardSquares.any fun rc =>
    match board rc.1 rc.2 with
    | some piece => piece.color = playerColor ∧ getValidMoves rc.1 rc.2 board ≠ []
    | none => false

/-- A window entry `{row, col, piece}` collected by the combination scan. -/
structure PD where
  row : Fin 8
  col : Fin 8
  piece : Piece
deriving DecidableEq, Repr

/-- The string key "row,col" used for the JS position sets, modelled as the
integer coordinate pair (the string encoding is injective on it). -/
def pdKey (pd : PD) : Int × Int := ((pd.row.val : Int), (pd.col.val : Int))

/-- The eight neighbor offsets of `areConnectedOptimized`, in source order. -/
def deltas : List (Int × Int) :=
  [(-1, -1), (-1, 0), (-1, 1), (0, -1), (0, 1), (1, -1), (1, 0), (1, 1)]

/-- One neighbor probe of the BFS of `areConnectedOptimized`: if the probed
key belongs to the cluster's position set and is unvisited, mark it visited
and enqueue the cluster entry found at that key. -/
def kShift (c : PD) (d : Int × Int) : Int × Int :=
  ((c.row.val : Int) + d.1, (c.col.val : Int) + d.2)

def probeStep (ps : List PD) (c : PD) (acc : List (Int × Int) × List PD) (d : Int × Int) :
    List (Int × Int) × List PD :=
  let k : Int × Int := kShift c d
  if k ∈ ps.map pdKey ∧ k ∉ acc.1 then
    match ps.find? (fun p => pdKey p = k) with
    | some x => (acc.1 ++ [k], acc.2 ++ [x])
    | none => acc
  else acc

/-- One dequeue step of the BFS in `areConnectedOptimized`: probe the eight
neighbors of the dequeued entry, adding unvisited members of the cluster to
the visited set and the queue. -/
def bfsProbe (ps : List PD) (c : PD) (vis : List (Int × Int)) (q : List PD) :
    List (Int × Int) × List PD :=
  deltas.foldl (probeStep ps c) (vis, q)

/-- The BFS loop of `areConnectedOptimized` (fuel-indexed; the fuel passed by
`areConnectedOptimized` provably suffices for the queue to drain). -/
def bfsLoop (ps : List PD) : Nat → List PD → List (Int × Int) → List (Int × Int)
  | 0, _, vis => vis
  | _ + 1, [], vis => vis
  | fuel + 1, c :: q, vis =>
    let s := bfsProbe ps c vis []
    bfsLoop ps fuel (q ++ s.2) s.1

/-- `areConnectedOptimized(ps)`: breadth-first search from `ps[0]` over the
8-neighbor adjacency restricted to the cluster's position set; connected iff
the visited set covers all of `ps`. -/
def areConnectedOptimized (ps : List PD) : Bool :=
  if ps.length ≤ 1 then true
  else
    match ps with
    | [] => true
    | p0 :: _ => (bfsLoop ps (2 * ps.length + 2) [p0] [pdKey p0]).length = ps.length

/-- The subset of `ps` selected by bitmask `m` (bit `i` of `m` selects
`ps[i]`; the source iterates `i` testing `(m >> i) & 1`, rendered here as
structural recursion on the list with the low bit). -/
def selectByMask : Nat → List PD → List PD
  | _, [] => []
  | m, pd :: rest =>
    if m % 2 = 1 then pd :: selectByMask (m / 2) rest else selectByMask (m / 2) rest

/-- Sum of the piece numbers of a selection (the `s` accumulator). -/
def sumNumbers (c : List PD) : Nat := (c.map fun pd => pd.piece.number).sum

/-- `findValidCombinations(ps)`: enumerate bitmasks `m = 3 .. 2^n - 1`, skip
selections of size outside `[2,8]`, and keep those summing to 10 that contain
both colors and are connected. -/
def findValidCombinations (ps : List PD) : List (List PD) :=
  (List.range' 3 (2 ^ ps.length - 3)).filterMap fun m =>
    let c := selectByMask m ps
    if c.length > 8 ∨ c.length < 2 then none
    else
      if sumNumbers c = 10 ∧ (c.any fun pd => pd.piece.color = .white) ∧
          (c.any fun pd => pd.piece.color = .black) ∧ areConnectedOptimized c then
        some c
      else none

/-- The occupied squares of the Chebyshev-radius-3 window around
`(checkRow, checkCol)` clipped to the board, in row-major order: the nested
loops `r = max(0,cR-3) .. min(7,cR+3)`, `c = max(0,cC-3) .. min(7,cC+3)`
traverse exactly the row-major squares satisfying the window bounds. -/
def nearbyPieces (boardState : Board) (checkRow checkCol : Fin 8) : List PD :=
  boardSquares.filterMap fun rc =>
    if ((checkRow.val : Int) - 3 ≤ (rc.1.val : Int) ∧
          (rc.1.val : Int) ≤ (checkRow.val : Int) + 3) ∧
        ((checkCol.val : Int) - 3 ≤ (rc.2.val : Int) ∧
          (rc.2.val : Int) ≤ (checkCol.val : Int) + 3) then
      match boardState rc.1 rc.2 with
      | some piece => some { row := rc.1, col := rc.2, piece := piece }
      | none => none
    else none

/-- `checkCombinationsAroundPositionOnBoard`: collect the window, exit early
when it is single-colored, otherwise enumerate combinations. (The
`scoringPlayerColor` argument is unused in the source as well.) -/
def checkCombinationsAroundPositionOnBoard (checkRow checkCol : Fin 8) (boardState : Board)
    (scoringPlayerColor : Color) : List (List PD) :=
  let nP := nearbyPieces boardState checkRow checkCol
  let hasWhitePiece := nP.any fun pd => pd.piece.color = .white
  let hasBlackPiece := nP.any fun pd => pd.piece.color = .black
  if ¬hasWhitePiece ∨ ¬hasBlackPiece then [] else findValidCombinations nP

/-- Result record of `processPromotion`. -/
structure PromoResult where
  points : Nat
  leadsToChoice : Bool
  captures : List (Fin 8 × Fin 8)
deriving DecidableEq, Repr

/-- The row-major list of opposing, same-number, not-yet-promoted pieces
(the `matchingPieces` scan of `processPromotion`). -/
def promotionMatches (piece : Piece) (boardState : Board) : List (Fin 8 × Fin 8) :=
  boardSquares.filter fun rc =>
    match boardState rc.1 rc.2 with
    | some targetPiece =>
      targetPiece.color = piece.color.other ∧ targetPiece.number = piece.number ∧
        targetPiece.promoted = false
    | none => false

/-- `processPromotion(row, col, boardState)`: zero matches score nothing; one
match is a deterministic capture; two or more capture the first match and set
`leadsToChoice`. (The source dereferences the promoted piece unconditionally,
so an empty square is unreachable; we return the zero result there.) -/
def processPromotion (row col : Fin 8) (boardState : Board) : PromoResult :=
  match boardState row col with
  | none => { points := 0, leadsToChoice := false, captures := [] }
  | some piece =>
    match promotionMatches piece boardState with
    | [] => { points := 0, leadsToChoice := false, captures := [] }
    | [m] => { points := piece.number, leadsToChoice := false, captures := [m] }
    | m :: _ :: _ => { points := piece.number, leadsToChoice := true, captures := [m] }

/-- JS numbers as used by the engine: a rational, an infinity, or NaN. -/
inductive Val where
  | nan
  | ninf
  | pinf
  | fin (q : ℚ)
deriving DecidableEq, Repr

namespace Val

/-- JS addition on `Val` (`-Infinity + Infinity` is NaN). -/
def add : Val → Val → Val
  | nan, _ => nan
  | _, nan => nan
  | ninf, pinf => nan
  | pinf, ninf => nan
  | ninf, _ => ninf
  | _, ninf => ninf
  | pinf, _ => pinf
  | _, pinf => pinf
  | fin a, fin b => fin (a + b)

/-- JS unary negation on `Val`. -/
def neg : Val → Val
  | nan => nan
  | ninf => pinf
  | pinf => ninf
  | fin a => fin (-a)

/-- JS `a < b` (false whenever NaN is involved). -/
def ltb : Val → Val → Bool
  | nan, _ => false
  | _, nan => false
  | ninf, ninf => false
  | ninf, _ => true
  | _, ninf => false
  | pinf, _ => false
  | fin _, pinf => true
  | fin a, fin b => decide (a < b)

/-- JS `a <= b` (false whenever NaN is involved). -/
def leb : Val → Val → Bool
  | nan, _ => false
  | _, nan => false
  | ninf, _ => true
  | _, ninf => false
  | _, pinf => true
  | pinf, fin _ => false
  | fin a, fin b => decide (a ≤ b)

/-- `Math.max` (NaN-absorbing). -/
def max (a b : Val) : Val :=
  if a = nan ∨ b = nan then nan else if ltb a b then b else a

/-- `Math.min` (NaN-absorbing). -/
def min (a b : Val) : Val :=
  if a = nan ∨ b = nan then nan else if ltb b a then b else a

/-- Finiteness predicate: the value is an actual rational. -/
def isFinite : Val → Prop
  | fin _ => True
  | _ => False

instance : DecidablePred isFinite := by
  intro v
  unfold isFinite
  cases v <;> infer_instance

end Val

/-- Result record of `simulateFullMove`
(`{tempBoard, aiScoreGain, leadsToChoiceForThisPlayer}`). -/
structure SimResult where
  tempBoard : Option Board
  aiScoreGain : Val
  leadsToChoiceForThisPlayer : Bool
deriving DecidableEq

/-- The invalid-move sentinel `{tempBoard: null, aiScoreGain: -Infinity,
leadsToChoiceForThisPlayer: false}`. -/
def invalidSim : SimResult :=
  { tempBoard := none, aiScoreGain := .ninf, leadsToChoiceForThisPlayer := false }

/-- Whether landing on `toRow` promotes (`(white && toRow === 0) ||
(black && toRow === 7)`). -/
def isPromotionRow (color : Color) (toRow : Fin 8) : Bool :=
  (color = Color.white ∧ toRow = (0 : Fin 8)) ∨ (color = Color.black ∧ toRow = (7 : Fin 8))

/-- The promotion pass of `simulateFullMove`: mark the moved piece promoted,
run `processPromotion`, apply its captures. Returns the updated board, the
points gained and the choice flag. -/
def promoStage (movedPiece : Piece) (toRow toCol : Fin 8) (b : Board) :
    Board × Nat × Bool :=
  let b2 := boardSet b toRow toCol (some { movedPiece with promoted := true })
  let promotionResult := processPromotion toRow toCol b2
  let b3 := promotionResult.captures.foldl (fun bb rc => boardSet bb rc.1 rc.2 none) b2
  (b3, promotionResult.points, promotionResult.leadsToChoice)

/-- The capture-collection inner loops of the combination pass: walk the
accepted combinations in order, scoring each opposing-color member the first
time its square is seen (the deduplicating `piecesToRemoveByCombination`
set, keyed by position, in insertion order). -/
def collectComboCaptures (b : Board) (forPlayerColor : Color) (combos : List (List PD)) :
    List (Fin 8 × Fin 8) × Nat :=
  combos.foldl
    (fun acc combination =>
      combination.foldl
        (fun acc2 pos =>
          match b pos.row pos.col with
          | some pieceInCombination =>
            if pieceInCombination.color ≠ forPlayerColor ∧ (pos.row, pos.col) ∉ acc2.1 then
              (acc2.1 ++ [(pos.row, pos.col)], acc2.2 + pieceInCombination.number)
            else acc2
          | none => acc2)
        acc)
    ([], 0)

/-- The combination pass of `simulateFullMove`: find combinations around the
destination, collect and remove the deduplicated opposing captures. -/
def comboStage (toRow toCol : Fin 8) (forPlayerColor : Color) (b : Board) : Board × Nat :=
  let combinations := checkCombinationsAroundPositionOnBoard toRow toCol b forPlayerColor
  if combinations.length > 0 then
    let cap := collectComboCaptures b forPlayerColor combinations
    (cap.1.foldl (fun bb rc => boardSet bb rc.1 rc.2 none) b, cap.2)
  else (b, 0)

/-- `simulateFullMove(fromRow, fromCol, toRow, toCol, forPlayerColor,
sourceBoard)`: deep-copy (the identity on pure board values), validate,
relocate, run the promotion pass when a not-yet-promoted piece lands on its
home rank, then the combination pass; total gain is promotion points plus
combination captures. -/
def simulateFullMove (fromRow fromCol toRow toCol : Fin 8) (forPlayerColor : Color)
    (sourceBoard : Board) : SimResult :=
  let tempBoard := sourceBoard
  match tempBoard fromRow fromCol with
  | none => invalidSim
  | some pieceToMove =>
    if pieceToMove.color ≠ forPlayerColor then invalidSim
    else
      let movedPiece := pieceToMove
      if tempBoard toRow toCol ≠ none then invalidSim
      else
        let b1 := boardSet (boardSet tempBoard toRow toCol (some movedPiece)) fromRow fromCol none
        let originalPieceFromSource := sourceBoard fromRow fromCol
        let sourceUnpromoted : Bool :=
          match originalPieceFromSource with
          | some p => !p.promoted
          | none => false
        let promoted :=
          if isPromotionRow movedPiece.color toRow && sourceUnpromoted then
            promoStage movedPiece toRow toCol b1
          else (b1, 0, false)
        let combo := comboStage toRow toCol forPlayerColor promoted.1
        { tempBoard := some combo.1
          aiScoreGain := .fin ((promoted.2.1 : ℚ) + (combo.2 : ℚ))
          leadsToChoiceForThisPlayer := promoted.2.2 }

/-- The process-global Zobrist key material: a 16x64 table (indices beyond
the piece/square ranges are never consulted for valid boards) and the
side-to-move key, generated from `Math.random` at startup and therefore a
parameter of the embedding. Keys are 64-bit BigInts, modelled as `Nat`
(XOR never leaves 64 bits, and no claim depends on the width). -/
structure ZTable where
  table : Nat → Nat → Nat
  blackToMove : Nat

/-- `getPieceIndex(piece)`: white numbers 1-8 map to 0-7, black to 8-15.
The promoted flag is not consulted. -/
def getPieceIndex (piece : Piece) : Nat :=
  (if piece.color = Color.white then 0 else 8) + piece.number - 1

/-- `calculateZobristKey(board, currentPlayer)`: XOR of the key of every
occupied square, XOR the side-to-move key if Black moves. -/
def calculateZobristKey (Z : ZTable) (board : Board) (currentPlayer : Color) : Nat :=
  let hash := boardSquares.foldl
    (fun h rc =>
      match board rc.1 rc.2 with
      | some piece => h ^^^ Z.table (getPieceIndex piece) (rc.1.val * 8 + rc.2.val)
      | none => h)
    0
  if currentPlayer = Color.black then hash ^^^ Z.blackToMove else hash

/-- Game state as used by the search (`hydrateFromServerState`): board, side
to move, the two scores (JS numbers) and the game-over flag. -/
structure GameState where
  board : Board
  currentPlayer : Color
  whiteScore : Val
  blackScore : Val
  gameOver : Bool
deriving DecidableEq

/-- `evaluateBoard(game, aiRootColor)`: score differential plus, per piece, a
promotion bonus of `number * 0.5` and an advancement bonus of `0.1` per rank
advanced, added for the root color and subtracted for the opponent. -/
def evaluateBoard (game : GameState) (aiRootColor : Color) : Val :=
  let opponentColor := aiRootColor.other
  let aiScore := if aiRootColor = Color.white then game.whiteScore else game.blackScore
  let opponentScore := if opponentColor = Color.white then game.whiteScore else game.blackScore
  boardSquares.foldl
    (fun score rc =>
      match game.board rc.1 rc.2 with
      | some piece =>
        let pieceValue : ℚ :=
          (if piece.promoted then (piece.number : ℚ) * (1 / 2) else 0) +
            (if piece.color = Color.white then ((7 : ℚ) - (rc.1.val : ℚ)) * (1 / 10)
             else (rc.1.val : ℚ) * (1 / 10))
        if piece.color = aiRootColor then score.add (.fin pieceValue)
        else score.add (.neg (.fin pieceValue))
      | none => score)
    (aiScore.add opponentScore.neg)

/-- Transposition-table flags. -/
inductive Flag where
  | EXACT
  | LOWERBOUND
  | UPPERBOUND
deriving DecidableEq, Repr

/-- A transposition-table entry `{value, depth, flag}`. -/
structure TTEntry where
  value : Val
  depth : Nat
  flag : Flag
deriving DecidableEq, Repr

/-- The transposition table (`Map` keyed by the hash); modelled as an
association list where insertion prepends and lookup takes the first hit. -/
abbrev TT := List (Nat × TTEntry)

/-- `transpositionTable.get(hash)`. -/
def ttGet (tt : TT) (hash : Nat) : Option TTEntry :=
  (List.find? (fun e => e.1 = hash) tt).map fun e => e.2

/-- `transpositionTable.set(hash, entry)`. -/
def ttSet (tt : TT) (hash : Nat) (e : TTEntry) : TT :=
  ((hash, e) :: tt : List (Nat × TTEntry))

/-- The transposition-table probe at the head of `alphaBetaSearch`: an
`EXACT` entry of sufficient depth returns a value; bound entries tighten the
window, returning the entry value if the tightened window is empty;
otherwise the (possibly tightened) window is handed back. -/
def ttProbe (tt : TT) (currentHash : Nat) (depth : Nat) (alpha beta : Val) :
    Sum Val (Val × Val) :=
  match ttGet tt currentHash with
  | none => .inr (alpha, beta)
  | some tableEntry =>
    if tableEntry.depth ≥ depth then
      if tableEntry.flag = .EXACT then .inl tableEntry.value
      else
        let alpha1 :=
          if tableEntry.flag = .LOWERBOUND then Val.max alpha tableEntry.value else alpha
        let beta1 :=
          if tableEntry.flag = .UPPERBOUND then Val.min beta tableEntry.value else beta
        if Val.leb beta1 alpha1 then .inl tableEntry.value else .inr (alpha1, beta1)
    else .inr (alpha, beta)

/-- The child state hydrated for a move during search: the simulated board,
the flipped side to move, the mover's score increased by the gain
(`hydrateFromServerState` leaves `gameOver` false when absent). The board
default on the unreachable null-board path (the generator never produces an
invalid move) is the empty board; the JS would crash there. -/
def childState (game : GameState) (sim : SimResult) : GameState :=
  { board := sim.tempBoard.getD emptyBoard
    currentPlayer := game.currentPlayer.other
    whiteScore :=
      game.whiteScore.add (if game.currentPlayer = Color.white then sim.aiScoreGain else .fin 0)
    blackScore :=
      game.blackScore.add (if game.currentPlayer = Color.black then sim.aiScoreGain else .fin 0)
    gameOver := false }

/-- The incremental hash for a move: XOR out (piece, from), XOR in
(piece, to), XOR the side-to-move key. -/
def nextHashOf (Z : ZTable) (currentHash : Nat) (move : Move) : Nat :=
  currentHash ^^^ Z.table (getPieceIndex move.piece) (move.fromRow.val * 8 + move.fromCol.val) ^^^
    Z.table (getPieceIndex move.piece) (move.toRow.val * 8 + move.toCol.val) ^^^ Z.blackToMove

/-- The maximizing move loop of `alphaBetaSearch` (`recurse` is the search at
the next shallower depth). Returns the best value and the final alpha, beta
and table. The choice flag of the simulation is ignored here, exactly as in
the source, which destructures only `tempBoard` and `aiScoreGain`. -/
def abMaxLoop (Z : ZTable) (recurse : GameState → Val → Val → Nat → TT → Val × TT)
    (game : GameState) (currentHash : Nat) :
    List Move → Val → Val → Val → TT → Val × Val × Val × TT
  | [], bestValue, alpha, beta, tt => (bestValue, alpha, beta, tt)
  | move :: rest, bestValue, alpha, beta, tt =>
    let nh := nextHashOf Z currentHash move
    let sim := simulateFullMove move.fromRow move.fromCol move.toRow move.toCol
      game.currentPlayer game.board
    let childGame := childState game sim
    let rec1 := recurse childGame alpha beta nh tt
    let ev := sim.aiScoreGain.add rec1.1
    let bestValue1 := Val.max bestValue ev
    let alpha1 := Val.max alpha ev
    if Val.leb beta alpha1 then (bestValue1, alpha1, beta, rec1.2)
    else abMaxLoop Z recurse game currentHash rest bestValue1 alpha1 beta rec1.2

/-- The minimizing move loop of `alphaBetaSearch`: the child value is
`-aiScoreGain + recursion`, `bestValue` and `beta` take minima. -/
def abMinLoop (Z : ZTable) (recurse : GameState → Val → Val → Nat → TT → Val × TT)
    (game : GameState) (currentHash : Nat) :
    List Move → Val → Val → Val → TT → Val × Val × Val × TT
  | [], bestValue, alpha, beta, tt => (bestValue, alpha, beta, tt)
  | move :: rest, bestValue, alpha, beta, tt =>
    let nh := nextHashOf Z currentHash move
    let sim := simulateFullMove move.fromRow move.fromCol move.toRow move.toCol
      game.currentPlayer game.board
    let childGame := childState game sim
    let rec1 := recurse childGame alpha beta nh tt
    let ev := sim.aiScoreGain.neg.add rec1.1
    let bestValue1 := Val.min bestValue ev
    let beta1 := Val.min beta ev
    if Val.leb beta1 alpha then (bestValue1, alpha, beta1, rec1.2)
    else abMinLoop Z recurse game currentHash rest bestValue1 alpha beta1 rec1.2

/-- `alphaBetaSearch(game, depth, alpha, beta, isMaximizingPlayer,
aiRootColor, currentHash)` with the transposition table passed and returned
explicitly (it is a module-global `Map` in the source). The stored flag
compares the value against the original alpha but the final beta variable. -/
def alphaBetaSearch (Z : ZTable) (aiRootColor : Color) :
    Nat → GameState → Val → Val → Bool → Nat → TT → Val × TT
  | 0, game, alpha, beta, _isMax, currentHash, tt =>
    (match ttProbe tt currentHash 0 alpha beta with
     | .inl v => (v, tt)
     | .inr _ => (evaluateBoard game aiRootColor, tt))
  | depth + 1, game, alpha, beta, isMax, currentHash, tt =>
    (match ttProbe tt currentHash (depth + 1) alpha beta with
     | .inl v => (v, tt)
     | .inr ab =>
       if game.gameOver = true ∨ hasValidMoves game.currentPlayer game.board = false then
         (evaluateBoard game aiRootColor, tt)
       else
         let possibleMoves := getAllPossibleMovesForPlayer game.currentPlayer game.board
         let res :=
           if isMax then
             abMaxLoop Z (fun g a b h t => alphaBetaSearch Z aiRootColor depth g a b false h t)
               game currentHash possibleMoves .ninf ab.1 ab.2 tt
           else
             abMinLoop Z (fun g a b h t => alphaBetaSearch Z aiRootColor depth g a b true h t)
               game currentHash possibleMoves .pinf ab.1 ab.2 tt
         let bestValue := res.1
         let flag : Flag :=
           if Val.leb bestValue alpha then .UPPERBOUND
           else if Val.leb res.2.2.1 bestValue then .LOWERBOUND
           else .EXACT
         (bestValue,
          ttSet res.2.2.2 currentHash { value := bestValue, depth := depth + 1, flag := flag }))

/-- The hard depth cap `MAX_SEARCH_DEPTH`. -/
def MAX_SEARCH_DEPTH : Nat := 15

/-- The root evaluation of one candidate move (body of the move loop of
`findBestMoveWithAlphaBeta`): a move whose simulation leads to a promotion
choice is valued at its immediate gain without recursion; any other move is
valued at its gain plus a full-window opponent search one ply shallower. -/
def rootMoveValue (Z : ZTable) (game : GameState) (playerColor : Color) (depth : Nat)
    (rootHash : Nat) (move : Move) (tt : TT) : Val × TT :=
  let sim := simulateFullMove move.fromRow move.fromCol move.toRow move.toCol
    playerColor game.board
  if sim.leadsToChoiceForThisPlayer then (sim.aiScoreGain, tt)
  else
    let nh := nextHashOf Z rootHash move
    let childGame := childState game sim
    let rec1 := alphaBetaSearch Z playerColor (depth - 1) childGame .ninf .pinf false nh tt
    (sim.aiScoreGain.add rec1.1, rec1.2)

/-- Outcome of the root move loop at one depth: either the wall clock expired
mid-depth, or the loop completed with the depth's best move and value. -/
inductive RootOutcome where
  | timedOut (t : Nat) (tt : TT)
  | completed (cur : Option Move) (bestValueForDepth : Val) (t : Nat) (tt : TT)

/-- The root move loop at one depth: before each move the wall clock is
checked (one `timer` index per check); each move is valued by
`rootMoveValue` and strictly better values replace the depth's best move. -/
def rootLoop (Z : ZTable) (timer : Nat → Bool) (game : GameState) (playerColor : Color)
    (depth : Nat) (rootHash : Nat) :
    List Move → Option Move → Val → Nat → TT → RootOutcome
  | [], cur, bestValueForDepth, t, tt => .completed cur bestValueForDepth t tt
  | move :: rest, cur, bestValueForDepth, t, tt =>
    if timer t then .timedOut (t + 1) tt
    else
      let mv := rootMoveValue Z game playerColor depth rootHash move tt
      if Val.ltb bestValueForDepth mv.1 then
        rootLoop Z timer game playerColor depth rootHash rest (some move) mv.1 (t + 1) mv.2
      else rootLoop Z timer game playerColor depth rootHash rest cur bestValueForDepth (t + 1) mv.2

/-- Coordinate equality of moves, as used to locate the previous best move
(`findIndex` compares the four coordinates only). -/
def sameCoords (a b : Move) : Bool :=
  a.fromRow = b.fromRow ∧ a.fromCol = b.fromCol ∧ a.toRow = b.toRow ∧ a.toCol = b.toCol

/-- Move ordering: splice the previous best move (when found by coordinate
match) to the front of the candidate list. The source dereferences
`bestMoveSoFar` unconditionally, so a null best move is unreachable there;
we return the list unchanged in that case. -/
def prioritize (bestMoveSoFar : Option Move) (possibleMoves : List Move) : List Move :=
  match bestMoveSoFar with
  | none => possibleMoves
  | some b =>
    match possibleMoves.findIdx? (fun m => sameCoords m b) with
    | none => possibleMoves
    | some i =>
      match possibleMoves.get? i with
      | none => possibleMoves
      | some prioritizedMove => prioritizedMove :: possibleMoves.eraseIdx i

/-- The iterative-deepening loop over the remaining depths: per depth,
reorder the candidates, recompute the root hash, run the root move loop;
a mid-depth timeout returns the previous depth's best move, a timeout
detected after a completed depth returns that depth's best move. -/
def iddfsLoop (Z : ZTable) (timer : Nat → Bool) (game : GameState) (playerColor : Color)
    (possibleMoves : List Move) :
    List Nat → Option Move → Val → Nat → TT → Option Move
  | [], bestMoveSoFar, _bestValueSoFar, _t, _tt => bestMoveSoFar
  | depth :: rest, bestMoveSoFar, bestValueSoFar, t, tt =>
    let movesToSearch := prioritize bestMoveSoFar possibleMoves
    let rootHash := calculateZobristKey Z game.board game.currentPlayer
    match rootLoop Z timer game playerColor depth rootHash movesToSearch none .ninf t tt with
    | .timedOut _ _ => bestMoveSoFar
    | .completed cur bestValueForDepth t2 tt2 =>
      if timer t2 then cur
      else iddfsLoop Z timer game playerColor possibleMoves rest cur bestValueForDepth (t2 + 1) tt2

/-- `findBestMoveWithAlphaBeta(game)`: no candidate moves means no move;
otherwise a uniformly drawn candidate (the draw is the parameter `pick`,
reduced modulo the candidate count) seeds the iterative deepening over
depths `1..MAX_SEARCH_DEPTH`. The transposition table is cleared by the
endpoint before each search, hence the explicit table argument. -/
def findBestMoveWithAlphaBeta (Z : ZTable) (timer : Nat → Bool) (pick : Nat)
    (game : GameState) (tt : TT) : Option Move :=
  let playerColor := game.currentPlayer
  let possibleMoves := getAllPossibleMovesForPlayer playerColor game.board
  if h : possibleMoves = [] then none
  else
    let bestMoveSoFar := possibleMoves.get
      ⟨pick % possibleMoves.length,
       Nat.mod_lt _ (List.length_pos.mpr h)⟩
    iddfsLoop Z timer game playerColor possibleMoves
      (List.range' 1 MAX_SEARCH_DEPTH) (some bestMoveSoFar) .ninf 0 tt

/-! ## Generic fold and XOR helper lemmas -/

/-- Two folds agree when the step functions agree on the list's elements. -/
theorem foldl_congr_mem {α β : Type} {l : List α} {f g : β → α → β} :
    (∀ b x, x ∈ l → f b x = g b x) → ∀ a, l.foldl f a = l.foldl g a := by
  induction l with
  | nil => intro _ a; rfl
  | cons x xs ih =>
    intro h a
    simp only [List.foldl_cons]
    rw [h a x (by simp)]
    exact ih (fun b y hy => h b y (by simp [hy])) _

/-- XOR-fold of the values of `f` over a list. -/
def xorAll {α : Type} (l : List α) (f : α → Nat) : Nat :=
  l.foldl (fun h x => h ^^^ f x) 0

theorem xorAll_init {α : Type} (l : List α) (f : α → Nat) :
    ∀ a : Nat, l.foldl (fun h x => h ^^^ f x) a = a ^^^ xorAll l f := by
  induction l with
  | nil => intro a; simp [xorAll]
  | cons x xs ih =>
    intro a
    simp only [xorAll, List.foldl_cons, Nat.zero_xor] at ih ⊢
    rw [ih (a ^^^ f x), ih (f x), ← Nat.xor_assoc]

theorem xorAll_cons {α : Type} (x : α) (l : List α) (f : α → Nat) :
    xorAll (x :: l) f = f x ^^^ xorAll l f := by
  simp only [xorAll, List.foldl_cons, Nat.zero_xor]
  exact xorAll_init l f (f x)

/-- Pointwise XOR of two folds is the fold of the pointwise XOR. -/
theorem xorAll_xor {α : Type} (l : List α) (f g : α → Nat) :
    xorAll l f ^^^ xorAll l g = xorAll l fun x => f x ^^^ g x := by
  induction l with
  | nil => simp [xorAll]
  | cons x xs ih =>
    rw [xorAll_cons, xorAll_cons, xorAll_cons, ← ih]
    rw [Nat.xor_assoc, Nat.xor_assoc]
    congr 1
    rw [← Nat.xor_assoc, ← Nat.xor_assoc, Nat.xor_comm (xorAll xs f) (g x)]

/-- A fold of an everywhere-vanishing function is zero. -/
theorem xorAll_zero {α : Type} {l : List α} {h : α → Nat} :
    (∀ x ∈ l, h x = 0) → xorAll l h = 0 := by
  induction l with
  | nil => intro _; rfl
  | cons x xs ih =>
    intro hz
    rw [xorAll_cons, hz x (by simp), Nat.zero_xor]
    exact ih fun y hy => hz y (by simp [hy])

/-- A fold of a function vanishing away from one listed element is its value
there (the list must not repeat that element). -/
theorem xorAll_single {α : Type} {l : List α} {p : α} {h : α → Nat} :
    l.Nodup → p ∈ l → (∀ x ∈ l, x ≠ p → h x = 0) → xorAll l h = h p := by
  induction l with
  | nil => intro _ hp; cases hp
  | cons x xs ih =>
    intro hnd hp hz
    rw [xorAll_cons]
    rcases List.mem_cons.mp hp with hxp | hp2
    · subst hxp
      have hrest : xorAll xs h = 0 := by
        refine xorAll_zero fun y hy => hz y (by simp [hy]) ?_
        rintro rfl
        exact (List.nodup_cons.mp hnd).1 hy
      rw [hrest, Nat.xor_zero]
    · have hx0 : h x = 0 := by
        refine hz x (by simp) ?_
        rintro rfl
        exact (List.nodup_cons.mp hnd).1 hp2
      rw [hx0, Nat.zero_xor]
      exact ih (List.nodup_cons.mp hnd).2 hp2 fun y hy hyp => hz y (by simp [hy]) hyp

/-- A fold of a function vanishing away from two distinct listed elements is
the XOR of its two values there. -/
theorem xorAll_two {α : Type} {l : List α} {p q : α} {h : α → Nat} :
    l.Nodup → p ∈ l → q ∈ l → p ≠ q → (∀ x ∈ l, x ≠ p → x ≠ q → h x = 0) →
    xorAll l h = h p ^^^ h q := by
  induction l with
  | nil => intro _ hp; cases hp
  | cons x xs ih =>
    intro hnd hp hq hne hz
    rw [xorAll_cons]
    rcases List.mem_cons.mp hp with hxp | hp2
    · subst hxp
      have hq2 : q ∈ xs := by
        rcases List.mem_cons.mp hq with h1 | h2
        · exact absurd h1.symm hne
        · exact h2
      have hrest : xorAll xs h = h q := by
        refine xorAll_single (List.nodup_cons.mp hnd).2 hq2 fun y hy hyq => ?_
        refine hz y (by simp [hy]) ?_ hyq
        rintro rfl
        exact (List.nodup_cons.mp hnd).1 hy
      rw [hrest]
    · rcases List.mem_cons.mp hq with hxq | hq2
      · subst hxq
        have hrest : xorAll xs h = h p := by
          refine xorAll_single (List.nodup_cons.mp hnd).2 hp2 fun y hy hyp => ?_
          refine hz y (by simp [hy]) hyp ?_
          rintro rfl
          exact (List.nodup_cons.mp hnd).1 hy
        rw [hrest, Nat.xor_comm]
      · have hx0 : h x = 0 := by
          refine hz x (by simp) ?_ ?_ <;> rintro rfl
          · exact (List.nodup_cons.mp hnd).1 hp2
          · exact (List.nodup_cons.mp hnd).1 hq2
        rw [hx0, Nat.zero_xor]
        exact ih (List.nodup_cons.mp hnd).2 hp2 hq2 hne
          fun y hy => hz y (by simp [hy])

/-! ## Zobrist hashing lemmas -/

/-- The contribution of one square to the Zobrist fold (0 when empty). -/
def zContrib (Z : ZTable) (board : Board) (rc : Fin 8 × Fin 8) : Nat :=
  match board rc.1 rc.2 with
  | some piece => Z.table (getPieceIndex piece) (rc.1.val * 8 + rc.2.val)
  | none => 0

theorem boardSquares_nodup : boardSquares.Nodup := by decide

theorem calculateZobristKey_eq_xorAll (Z : ZTable) (board : Board) (currentPlayer : Color) :
    calculateZobristKey Z board currentPlayer =
      if currentPlayer = Color.black then xorAll boardSquares (zContrib Z board) ^^^ Z.blackToMove
      else xorAll boardSquares (zContrib Z board) := by
  unfold calculateZobristKey xorAll
  have : boardSquares.foldl
      (fun h rc =>
        match board rc.1 rc.2 with
        | some piece => h ^^^ Z.table (getPieceIndex piece) (rc.1.val * 8 + rc.2.val)
        | none => h) 0 =
      boardSquares.foldl (fun h rc => h ^^^ zContrib Z board rc) 0 := by
    refine foldl_congr_mem (fun b rc _ => ?_) 0
    unfold zContrib
    cases board rc.1 rc.2 <;> simp
  rw [this]

/-- The color-and-number shape of an optional piece (the data the Zobrist
index depends on). -/
def shapeOf (o : Option Piece) : Option (Color × Nat) :=
  o.map fun p => (p.color, p.number)

/-- Claim C10: `calculateZobristKey` is blind to promotion status — two
boards with the same occupancy, colors and numbers (any promoted flags)
hash identically for either side to move, so the transposition table cannot
distinguish a position from the same position with different pieces
promoted. -/
theorem C10_zobrist_blind_to_promotion (Z : ZTable) (b1 b2 : Board) (currentPlayer : Color)
    (h : ∀ r c, shapeOf (b1 r c) = shapeOf (b2 r c)) :
    calculateZobristKey Z b1 currentPlayer = calculateZobristKey Z b2 currentPlayer := by
  rw [calculateZobristKey_eq_xorAll, calculateZobristKey_eq_xorAll]
  have hx : xorAll boardSquares (zContrib Z b1) = xorAll boardSquares (zContrib Z b2) := by
    unfold xorAll
    refine foldl_congr_mem (fun a rc _ => ?_) 0
    have hrc := h rc.1 rc.2
    unfold zContrib
    cases h1 : b1 rc.1 rc.2 with
    | none =>
      cases h2 : b2 rc.1 rc.2 with
      | none => rfl
      | some q => rw [h1, h2] at hrc; simp [shapeOf] at hrc
    | some p =>
      cases h2 : b2 rc.1 rc.2 with
      | none => rw [h1, h2] at hrc; simp [shapeOf] at hrc
      | some q =>
        rw [h1, h2] at hrc
        simp only [shapeOf, Option.map_some', Option.some.injEq, Prod.mk.injEq] at hrc
        simp only [getPieceIndex, hrc.1, hrc.2]
  rw [hx]

/-- Witness for C10: two concrete boards differing exactly in a promoted
flag receive the same hash under a non-degenerate key table. -/
theorem C10_zobrist_blind_to_promotion_witness :
    (∀ r c, shapeOf ((fun r c =>
        if r = (2 : Fin 8) ∧ c = (3 : Fin 8) then
          some { color := Color.white, number := 4, promoted := false }
        else if r = (6 : Fin 8) ∧ c = (1 : Fin 8) then
          some { color := Color.black, number := 7, promoted := true }
        else none : Board) r c) =
      shapeOf ((fun r c =>
        if r = (2 : Fin 8) ∧ c = (3 : Fin 8) then
          some { color := Color.white, number := 4, promoted := true }
        else if r = (6 : Fin 8) ∧ c = (1 : Fin 8) then
          some { color := Color.black, number := 7, promoted := false }
        else none : Board) r c)) ∧
    calculateZobristKey { table := fun i s => (i + 1) * 100 + s, blackToMove := 77 }
        (fun r c =>
          if r = (2 : Fin 8) ∧ c = (3 : Fin 8) then
            some { color := Color.white, number := 4, promoted := false }
          else if r = (6 : Fin 8) ∧ c = (1 : Fin 8) then
            some { color := Color.black, number := 7, promoted := true }
          else none) Color.black =
      calculateZobristKey { table := fun i s => (i + 1) * 100 + s, blackToMove := 77 }
        (fun r c =>
          if r = (2 : Fin 8) ∧ c = (3 : Fin 8) then
            some { color := Color.white, number := 4, promoted := true }
          else if r = (6 : Fin 8) ∧ c = (1 : Fin 8) then
            some { color := Color.black, number := 7, promoted := false }
          else none) Color.black :=
  ⟨by decide, C10_zobrist_blind_to_promotion _ _ _ _ (by decide)⟩

/-- A left-commuted XOR (for AC rewriting). -/
theorem nat_xor_left_comm (a b c : Nat) : a ^^^ (b ^^^ c) = b ^^^ (a ^^^ c) := by
  rw [← Nat.xor_assoc, Nat.xor_comm a b, Nat.xor_assoc]

/-- XOR cancellation of a repeated operand. -/
theorem nat_xor_cancel_left (a b : Nat) : a ^^^ (a ^^^ b) = b := by
  rw [← Nat.xor_assoc, Nat.xor_self, Nat.zero_xor]

/-- The post-move board of a plain step: the piece placed on the destination
square, the origin emptied. -/
def plainMoveBoard (b : Board) (frR frC toR toC : Fin 8) (p : Piece) : Board :=
  boardSet (boardSet b toR toC (some p)) frR frC none

theorem boardSet_same (b : Board) (r c : Fin 8) (v : Option Piece) :
    boardSet b r c v r c = v := by
  simp [boardSet]

theorem boardSet_other (b : Board) (r c r' c' : Fin 8) (v : Option Piece)
    (h : ¬(r' = r ∧ c' = c)) : boardSet b r c v r' c' = b r' c' := by
  simp [boardSet, h]

/-- The result of `simulateFullMove` on a successful move, written in terms
of the pass stages (used to reduce the simulation under the validity
hypotheses). -/
def successSim (b : Board) (p : Piece) (c : Color) (frR frC toR toC : Fin 8) : SimResult :=
  let b1 := plainMoveBoard b frR frC toR toC p
  let promoted :=
    if isPromotionRow c toR && !p.promoted then promoStage p toR toC b1
    else (b1, 0, false)
  let combo := comboStage toR toC c promoted.1
  { tempBoard := some combo.1
    aiScoreGain := .fin ((promoted.2.1 : ℚ) + (combo.2 : ℚ))
    leadsToChoiceForThisPlayer := promoted.2.2 }

/-- On a valid move (own piece at the origin, empty destination) the
simulation takes the success path through the two passes. -/
theorem simulateFullMove_success (b : Board) (p : Piece) (c : Color) (frR frC toR toC : Fin 8)
    (hfrom : b frR frC = some p) (hcolor : p.color = c) (hto : b toR toC = none) :
    simulateFullMove frR frC toR toC c b = successSim b p c frR frC toR toC := by
  unfold simulateFullMove successSim
  simp only [hfrom, hto, hcolor]
  rw [if_neg (by simp : ¬c ≠ c), if_neg (by simp : ¬(none : Option Piece) ≠ none)]
  rfl

/-- A valid plain move (origin piece of the mover's color, empty destination,
no promotion trigger, no combination capture) simulates to the bare
relocation of the piece. -/
theorem simulate_plain_board (b : Board) (p : Piece) (c : Color) (frR frC toR toC : Fin 8)
    (hfrom : b frR frC = some p) (hto : b toR toC = none) (hcolor : p.color = c)
    (hnoprom : ¬(isPromotionRow p.color toR = true ∧ p.promoted = false))
    (hnocap : (collectComboCaptures (plainMoveBoard b frR frC toR toC p) c
      (checkCombinationsAroundPositionOnBoard toR toC (plainMoveBoard b frR frC toR toC p)
        c)).1 = []) :
    (simulateFullMove frR frC toR toC c b).tempBoard =
      some (plainMoveBoard b frR frC toR toC p) := by
  rw [simulateFullMove_success b p c frR frC toR toC hfrom hcolor hto]
  have hcond2 : (isPromotionRow c toR && !p.promoted) = false := by
    cases hi : isPromotionRow c toR
    · rfl
    · cases hp : p.promoted
      · exact absurd ⟨by rw [← hcolor] at hi; exact hi, hp⟩ hnoprom
      · simp [hp]
  unfold successSim
  simp only [hcond2, Bool.false_eq_true, if_false, comboStage]
  by_cases hlen :
      (checkCombinationsAroundPositionOnBoard toR toC (plainMoveBoard b frR frC toR toC p)
        c).length > 0
  · simp only [hlen, if_true, hnocap, List.foldl_nil]
  · simp only [hlen, if_false]

/-- Claim C8: for a plain (non-capturing, non-promoting) move, the
incremental hash update — XOR out (piece, from), XOR in (piece, to), XOR the
side-to-move key — applied to the full pre-move hash equals the from-scratch
hash of the simulated post-move board with the other side to move. -/
theorem C8_incremental_hash_plain_move (Z : ZTable) (b : Board) (p : Piece) (c : Color)
    (frR frC toR toC : Fin 8)
    (hfrom : b frR frC = some p) (hto : b toR toC = none) (hcolor : p.color = c)
    (hnoprom : ¬(isPromotionRow p.color toR = true ∧ p.promoted = false))
    (hnocap : (collectComboCaptures (plainMoveBoard b frR frC toR toC p) c
      (checkCombinationsAroundPositionOnBoard toR toC (plainMoveBoard b frR frC toR toC p)
        c)).1 = []) :
    (simulateFullMove frR frC toR toC c b).tempBoard =
      some (plainMoveBoard b frR frC toR toC p) ∧
    calculateZobristKey Z (plainMoveBoard b frR frC toR toC p) c.other =
      calculateZobristKey Z b c ^^^ Z.table (getPieceIndex p) (frR.val * 8 + frC.val) ^^^
        Z.table (getPieceIndex p) (toR.val * 8 + toC.val) ^^^ Z.blackToMove := by
  refine ⟨simulate_plain_board b p c frR frC toR toC hfrom hto hcolor hnoprom hnocap, ?_⟩
  have hne : ((frR, frC) : Fin 8 × Fin 8) ≠ (toR, toC) := by
    intro h
    rw [Prod.mk.injEq] at h
    rw [h.1, h.2, hto] at hfrom
    cases hfrom
  set b2 := plainMoveBoard b frR frC toR toC p with hb2
  have hdiff : xorAll boardSquares (zContrib Z b) ^^^ xorAll boardSquares (zContrib Z b2) =
      Z.table (getPieceIndex p) (frR.val * 8 + frC.val) ^^^
        Z.table (getPieceIndex p) (toR.val * 8 + toC.val) := by
    rw [xorAll_xor]
    have := xorAll_two (l := boardSquares)
      (p := ((frR, frC) : Fin 8 × Fin 8)) (q := ((toR, toC) : Fin 8 × Fin 8))
      (h := fun rc => zContrib Z b rc ^^^ zContrib Z b2 rc)
      boardSquares_nodup (mem_boardSquares _) (mem_boardSquares _) hne ?_
    · rw [this]
      have h1 : zContrib Z b ((frR, frC) : Fin 8 × Fin 8) =
          Z.table (getPieceIndex p) (frR.val * 8 + frC.val) := by
        simp [zContrib, hfrom]
      have h2 : zContrib Z b2 ((frR, frC) : Fin 8 × Fin 8) = 0 := by
        simp only [zContrib, hb2, plainMoveBoard]
        rw [boardSet_same]
      have h3 : zContrib Z b ((toR, toC) : Fin 8 × Fin 8) = 0 := by
        simp [zContrib, hto]
      have h4 : zContrib Z b2 ((toR, toC) : Fin 8 × Fin 8) =
          Z.table (getPieceIndex p) (toR.val * 8 + toC.val) := by
        have hdi : ¬(toR = frR ∧ toC = frC) := by
          intro hwrong
          exact hne (by rw [Prod.mk.injEq]; exact ⟨hwrong.1.symm, hwrong.2.symm⟩)
        simp only [zContrib, hb2, plainMoveBoard]
        rw [boardSet_other _ _ _ _ _ _ hdi, boardSet_same]
      simp only [h1, h2, h3, h4, Nat.xor_zero, Nat.zero_xor]
    · intro rc _ hrp hrq
      have : b2 rc.1 rc.2 = b rc.1 rc.2 := by
        simp only [hb2, plainMoveBoard]
        rw [boardSet_other, boardSet_other]
        · intro hh
          exact hrq (by rw [Prod.mk.injEq]; exact ⟨hh.1, hh.2⟩)
        · intro hh
          exact hrp (by rw [Prod.mk.injEq]; exact ⟨hh.1, hh.2⟩)
      simp [zContrib, this, Nat.xor_self]
  have hbody : xorAll boardSquares (zContrib Z b2) =
      xorAll boardSquares (zContrib Z b) ^^^
        (Z.table (getPieceIndex p) (frR.val * 8 + frC.val) ^^^
          Z.table (getPieceIndex p) (toR.val * 8 + toC.val)) := by
    rw [← hdiff, nat_xor_cancel_left]
  rw [calculateZobristKey_eq_xorAll, calculateZobristKey_eq_xorAll]
  cases c with
  | white =>
    simp only [Color.other, reduceCtorEq, if_false, if_true]
    rw [hbody]
    simp [Nat.xor_assoc]
  | black =>
    simp only [Color.other, reduceCtorEq, if_false, if_true]
    rw [hbody]
    simp only [Nat.xor_assoc]
    rw [nat_xor_left_comm Z.blackToMove, nat_xor_left_comm Z.blackToMove, Nat.xor_self,
      Nat.xor_zero]

/-- Concrete board for the C8 witness: a single White 2 on (4,4). -/
def bC8 : Board := fun r c =>
  if r = (4 : Fin 8) ∧ c = (4 : Fin 8) then
    some { color := Color.white, number := 2, promoted := false }
  else none

/-- Concrete key table for the C8 witness. -/
def ZC8 : ZTable := { table := fun i s => (i + 1) * 1000 + s, blackToMove := 321 }

/-- Witness for C8: the plain White step (4,4) → (3,4) satisfies every
hypothesis and the incremental hash equation holds concretely. -/
theorem C8_incremental_hash_plain_move_witness :
    bC8 4 4 = some { color := Color.white, number := 2, promoted := false } ∧
    bC8 3 4 = none ∧
    (¬(isPromotionRow Color.white 3 = true ∧
      ({ color := Color.white, number := 2, promoted := false } : Piece).promoted = false)) ∧
    (simulateFullMove 4 4 3 4 Color.white bC8).tempBoard =
      some (plainMoveBoard bC8 4 4 3 4 { color := Color.white, number := 2, promoted := false }) ∧
    calculateZobristKey ZC8
        (plainMoveBoard bC8 4 4 3 4 { color := Color.white, number := 2, promoted := false })
        Color.white.other =
      calculateZobristKey ZC8 bC8 Color.white ^^^
        ZC8.table (getPieceIndex { color := Color.white, number := 2, promoted := false })
          (4 * 8 + 4) ^^^
        ZC8.table (getPieceIndex { color := Color.white, number := 2, promoted := false })
          (3 * 8 + 4) ^^^ ZC8.blackToMove := by
  refine ⟨by decide, by decide, by decide, ?_⟩
  have h := C8_incremental_hash_plain_move ZC8 bC8
    { color := Color.white, number := 2, promoted := false } Color.white 4 4 3 4
    (by decide) (by decide) (by decide) (by decide) (by decide)
  exact ⟨h.1, h.2⟩

/-! ## Promotion pass (claim C4) -/

/-- Declarative promotion-capture candidate: the square holds an opposing,
same-number, not-yet-promoted piece. -/
def IsMatch (piece : Piece) (boardState : Board) (rc : Fin 8 × Fin 8) : Prop :=
  ∃ t, boardState rc.1 rc.2 = some t ∧ t.color = piece.color.other ∧
    t.number = piece.number ∧ t.promoted = false

instance (piece : Piece) (boardState : Board) (rc : Fin 8 × Fin 8) :
    Decidable (IsMatch piece boardState rc) := by
  unfold IsMatch
  cases boardState rc.1 rc.2 with
  | none => exact .isFalse (by rintro ⟨t, ht, _⟩; cases ht)
  | some t =>
    by_cases h : t.color = piece.color.other ∧ t.number = piece.number ∧ t.promoted = false
    · exact .isTrue ⟨t, rfl, h.1, h.2.1, h.2.2⟩
    · refine .isFalse ?_
      rintro ⟨u, hu, h1, h2, h3⟩
      cases hu
      exact h ⟨h1, h2, h3⟩

/-- Row-major rank of a square. -/
def rmIdx (rc : Fin 8 × Fin 8) : Nat := rc.1.val * 8 + rc.2.val

theorem boardSquares_sorted :
    boardSquares.Pairwise (fun a b => rmIdx a < rmIdx b) := by decide

theorem mem_promotionMatches (piece : Piece) (boardState : Board) (rc : Fin 8 × Fin 8) :
    rc ∈ promotionMatches piece boardState ↔ IsMatch piece boardState rc := by
  unfold promotionMatches
  rw [List.mem_filter]
  constructor
  · rintro ⟨-, hb⟩
    unfold IsMatch
    cases hbs : boardState rc.1 rc.2 with
    | none => rw [hbs] at hb; cases hb
    | some t =>
      rw [hbs] at hb
      exact ⟨t, rfl, of_decide_eq_true hb⟩
  · rintro ⟨t, ht, h1, h2, h3⟩
    refine ⟨mem_boardSquares rc, ?_⟩
    rw [ht]
    exact decide_eq_true ⟨h1, h2, h3⟩

theorem promotionMatches_sorted (piece : Piece) (boardState : Board) :
    (promotionMatches piece boardState).Pairwise (fun a b => rmIdx a < rmIdx b) :=
  boardSquares_sorted.filter _

theorem Color.other_ne (c : Color) : c.other ≠ c := by
  cases c <;> decide

/-- Squares nulled by the combination pass always held an opposing piece. -/
theorem collectComboCaptures_mem (bb : Board) (c : Color) (combos : List (List PD)) :
    ∀ rc ∈ (collectComboCaptures bb c combos).1,
      ∃ t, bb rc.1 rc.2 = some t ∧ t.color ≠ c := by
  have inner : ∀ (combo : List PD) (acc : List (Fin 8 × Fin 8) × Nat),
      (∀ rc ∈ acc.1, ∃ t, bb rc.1 rc.2 = some t ∧ t.color ≠ c) →
      ∀ rc ∈ (combo.foldl
        (fun acc2 pos =>
          match bb pos.row pos.col with
          | some pieceInCombination =>
            if pieceInCombination.color ≠ c ∧ (pos.row, pos.col) ∉ acc2.1 then
              (acc2.1 ++ [(pos.row, pos.col)], acc2.2 + pieceInCombination.number)
            else acc2
          | none => acc2) acc).1,
        ∃ t, bb rc.1 rc.2 = some t ∧ t.color ≠ c := by
    intro combo
    induction combo with
    | nil => intro acc hacc rc hrc; exact hacc rc hrc
    | cons pos rest ih =>
      intro acc hacc rc hrc
      rw [List.foldl_cons] at hrc
      refine ih _ ?_ rc hrc
      intro rc2 hrc2
      cases hbb : bb pos.row pos.col with
      | none =>
        simp only [hbb] at hrc2
        exact hacc rc2 hrc2
      | some t =>
        simp only [hbb] at hrc2
        by_cases hcnd : t.color ≠ c ∧ (pos.row, pos.col) ∉ acc.1
        · rw [if_pos hcnd] at hrc2
          rcases List.mem_append.mp hrc2 with h1 | h2
          · exact hacc rc2 h1
          · rcases List.mem_singleton.mp h2 with rfl
            exact ⟨t, hbb, hcnd.1⟩
        · rw [if_neg hcnd] at hrc2
          exact hacc rc2 hrc2
  unfold collectComboCaptures
  generalize hgen : (([], 0) : List (Fin 8 × Fin 8) × Nat) = acc0
  have hacc0 : ∀ rc ∈ acc0.1, ∃ t, bb rc.1 rc.2 = some t ∧ t.color ≠ c := by
    rw [← hgen]; intro rc h; cases h
  clear hgen
  induction combos generalizing acc0 with
  | nil => exact hacc0
  | cons combo rest ih =>
    rw [List.foldl_cons]
    exact ih _ (inner combo acc0 hacc0)

/-- Folding square-clears over keys leaves untouched squares unchanged. -/
theorem foldl_clear_other (keys : List (Fin 8 × Fin 8)) (bb : Board) (r c : Fin 8)
    (h : ∀ rc ∈ keys, ¬(r = rc.1 ∧ c = rc.2)) :
    (keys.foldl (fun b2 rc => boardSet b2 rc.1 rc.2 none) bb) r c = bb r c := by
  induction keys generalizing bb with
  | nil => rfl
  | cons k rest ih =>
    rw [List.foldl_cons, ih _ (fun rc hrc => h rc (by simp [hrc]))]
    exact boardSet_other _ _ _ _ _ _ (h k (by simp))

/-- The combination pass never alters a square occupied by the mover. -/
theorem comboStage_own_square (toR toC r c : Fin 8) (col : Color) (bb : Board) (q : Piece)
    (hq : bb r c = some q) (hqc : q.color = col) :
    (comboStage toR toC col bb).1 r c = some q := by
  unfold comboStage
  by_cases hlen : (checkCombinationsAroundPositionOnBoard toR toC bb col).length > 0
  · simp only [hlen, if_true]
    rw [foldl_clear_other]
    · exact hq
    · intro rc hrc ⟨h1, h2⟩
      obtain ⟨t, ht, htc⟩ := collectComboCaptures_mem bb col _ rc hrc
      rw [← h1, ← h2, hq] at ht
      cases ht
      exact htc hqc
  · simp only [hlen, if_false]
    exact hq

/-- Claim C4: the promotion pass. For `processPromotion` on an occupied
square: with no declarative match it yields zero points, no capture and no
choice; with at least one match it yields the piece's number, captures
exactly the row-major-first match, and flags a choice iff a second distinct
match exists. For `simulateFullMove` with a valid origin/destination: an
already-promoted piece, or a destination off the mover's home rank, yields
no choice flag and leaves the moved piece's promoted flag unchanged; landing
a not-yet-promoted piece on the home rank marks it promoted. -/
theorem C4_promotion_pass (boardState : Board) (row col : Fin 8) (piece : Piece)
    (hpc : boardState row col = some piece)
    (b : Board) (p : Piece) (c : Color) (frR frC toR toC : Fin 8)
    (hfrom : b frR frC = some p) (hcolor : p.color = c) (hto : b toR toC = none) :
    ((∀ rc, ¬IsMatch piece boardState rc) →
      processPromotion row col boardState =
        { points := 0, leadsToChoice := false, captures := [] }) ∧
    ((∃ rc, IsMatch piece boardState rc) →
      (processPromotion row col boardState).points = piece.number ∧
      ∃ first, (processPromotion row col boardState).captures = [first] ∧
        IsMatch piece boardState first ∧
        (∀ rc, IsMatch piece boardState rc → rmIdx first ≤ rmIdx rc) ∧
        ((processPromotion row col boardState).leadsToChoice = true ↔
          ∃ rc, IsMatch piece boardState rc ∧ rc ≠ first)) ∧
    ((p.promoted = true ∨ isPromotionRow p.color toR = false) →
      (simulateFullMove frR frC toR toC c b).leadsToChoiceForThisPlayer = false ∧
      ∃ tb, (simulateFullMove frR frC toR toC c b).tempBoard = some tb ∧
        tb toR toC = some p) ∧
    ((p.promoted = false ∧ isPromotionRow p.color toR = true) →
      ∃ tb, (simulateFullMove frR frC toR toC c b).tempBoard = some tb ∧
        tb toR toC = some { p with promoted := true }) := by
  have hnodup : (promotionMatches piece boardState).Nodup := boardSquares_nodup.filter _
  have hd2 : ¬(toR = frR ∧ toC = frC) := by
    rintro ⟨rfl, rfl⟩
    rw [hfrom] at hto
    cases hto
  have hb1to : plainMoveBoard b frR frC toR toC p toR toC = some p := by
    unfold plainMoveBoard
    rw [boardSet_other _ _ _ _ _ _ hd2, boardSet_same]
  refine ⟨?_, ?_, ?_, ?_⟩
  · intro hno
    have hempty : promotionMatches piece boardState = [] := by
      rw [List.eq_nil_iff_forall_not_mem]
      intro rc hrc
      exact hno rc ((mem_promotionMatches _ _ _).mp hrc)
    unfold processPromotion
    simp only [hpc, hempty]
  · rintro ⟨rc0, hrc0⟩
    have hmem : rc0 ∈ promotionMatches piece boardState :=
      (mem_promotionMatches _ _ _).mpr hrc0
    cases hm : promotionMatches piece boardState with
    | nil => rw [hm] at hmem; cases hmem
    | cons first rest =>
      have hfirstmem : first ∈ promotionMatches piece boardState := by
        rw [hm]; exact List.mem_cons_self _ _
      have hfirstmatch : IsMatch piece boardState first :=
        (mem_promotionMatches _ _ _).mp hfirstmem
      have hsorted := promotionMatches_sorted piece boardState
      rw [hm, List.pairwise_cons] at hsorted
      have hmin : ∀ rc, IsMatch piece boardState rc → rmIdx first ≤ rmIdx rc := by
        intro rc hrc
        have hrcm : rc ∈ promotionMatches piece boardState :=
          (mem_promotionMatches _ _ _).mpr hrc
        rw [hm] at hrcm
        rcases List.mem_cons.mp hrcm with rfl | hrest
        · exact Nat.le_refl _
        · exact Nat.le_of_lt (hsorted.1 rc hrest)
      have hnodup2 := hnodup
      rw [hm, List.nodup_cons] at hnodup2
      unfold processPromotion
      simp only [hpc, hm]
      cases rest with
      | nil =>
        refine ⟨rfl, first, rfl, hfirstmatch, hmin, ?_⟩
        simp only [Bool.false_eq_true, false_iff]
        rintro ⟨rc, hrc, hne⟩
        have : rc ∈ promotionMatches piece boardState :=
          (mem_promotionMatches _ _ _).mpr hrc
        rw [hm] at this
        exact hne (List.mem_singleton.mp this)
      | cons second rest2 =>
        refine ⟨rfl, first, rfl, hfirstmatch, hmin, ?_⟩
        simp only [true_iff]
        refine ⟨second, ?_, ?_⟩
        · refine (mem_promotionMatches _ _ _).mp ?_
          rw [hm]
          exact List.mem_cons_of_mem _ (List.mem_cons_self _ _)
        · intro heq
          exact hnodup2.1 (heq ▸ List.mem_cons_self _ _)
  · intro hcase
    rw [simulateFullMove_success b p c frR frC toR toC hfrom hcolor hto]
    have hcondF : (isPromotionRow c toR && !p.promoted) = false := by
      rcases hcase with h3 | h3
      · simp [h3]
      · rw [← hcolor, h3]
        rfl
    unfold successSim
    simp only [hcondF, Bool.false_eq_true, if_false]
    exact ⟨by trivial, _, rfl, comboStage_own_square toR toC toR toC c _ p hb1to hcolor⟩
  · rintro ⟨hprom, hrow⟩
    rw [simulateFullMove_success b p c frR frC toR toC hfrom hcolor hto]
    have hcondT : (isPromotionRow c toR && !p.promoted) = true := by
      rw [← hcolor, hrow, hprom]
      rfl
    unfold successSim
    simp only [hcondT, if_true]
    have hb2at : boardSet (plainMoveBoard b frR frC toR toC p) toR toC
        (some { p with promoted := true }) toR toC = some { p with promoted := true } :=
      boardSet_same _ _ _ _
    have hpromoat : (promoStage p toR toC (plainMoveBoard b frR frC toR toC p)).1 toR toC =
        some { p with promoted := true } := by
      unfold promoStage
      dsimp only
      rw [foldl_clear_other]
      · exact hb2at
      · intro rc hrc hcontra
        have hb2rc : boardSet (plainMoveBoard b frR frC toR toC p) toR toC
            (some { p with promoted := true }) rc.1 rc.2 =
            some { p with promoted := true } := by
          rw [← hcontra.1, ← hcontra.2]
          exact hb2at
        have hcap : IsMatch { p with promoted := true }
            (boardSet (plainMoveBoard b frR frC toR toC p) toR toC
              (some { p with promoted := true })) rc := by
          revert hrc
          unfold processPromotion
          simp only [hb2at]
          cases hmm : promotionMatches { p with promoted := true }
              (boardSet (plainMoveBoard b frR frC toR toC p) toR toC
                (some { p with promoted := true })) with
          | nil => intro hrc; cases hrc
          | cons f r =>
            have hfm : IsMatch { p with promoted := true }
                (boardSet (plainMoveBoard b frR frC toR toC p) toR toC
                  (some { p with promoted := true })) f := by
              refine (mem_promotionMatches _ _ _).mp ?_
              rw [hmm]
              exact List.mem_cons_self _ _
            cases r with
            | nil =>
              intro hrc
              rcases List.mem_singleton.mp hrc with rfl
              exact hfm
            | cons g r2 =>
              intro hrc
              rcases List.mem_singleton.mp hrc with rfl
              exact hfm
        obtain ⟨t, ht, htc, -⟩ := hcap
        rw [hb2rc] at ht
        cases ht
        exact Color.other_ne _ htc.symm
    exact ⟨_, rfl, comboStage_own_square toR toC toR toC c _ _ hpromoat hcolor⟩

/-- Concrete board for the C4 witness: a promoted White 5 on (0,2), matching
Black 5s on (3,3) and (6,6). -/
def bC4 : Board := fun r c =>
  if r = (0 : Fin 8) ∧ c = (2 : Fin 8) then
    some { color := Color.white, number := 5, promoted := true }
  else if r = (3 : Fin 8) ∧ c = (3 : Fin 8) then
    some { color := Color.black, number := 5, promoted := false }
  else if r = (6 : Fin 8) ∧ c = (6 : Fin 8) then
    some { color := Color.black, number := 5, promoted := false }
  else none

/-- Witness for C4 at a two-match promotion scan and a non-promoting Black
step (3,3) → (4,3). -/
theorem C4_promotion_pass_witness :
    bC4 0 2 = some { color := Color.white, number := 5, promoted := true } ∧
    bC4 3 3 = some { color := Color.black, number := 5, promoted := false } ∧
    bC4 4 3 = none ∧
    processPromotion 0 2 bC4 =
      { points := 5, leadsToChoice := true, captures := [((3 : Fin 8), (3 : Fin 8))] } ∧
    (((∀ rc, ¬IsMatch { color := Color.white, number := 5, promoted := true } bC4 rc) →
      processPromotion 0 2 bC4 = { points := 0, leadsToChoice := false, captures := [] }) ∧
    ((∃ rc, IsMatch { color := Color.white, number := 5, promoted := true } bC4 rc) →
      (processPromotion 0 2 bC4).points =
        ({ color := Color.white, number := 5, promoted := true } : Piece).number ∧
      ∃ first, (processPromotion 0 2 bC4).captures = [first] ∧
        IsMatch { color := Color.white, number := 5, promoted := true } bC4 first ∧
        (∀ rc, IsMatch { color := Color.white, number := 5, promoted := true } bC4 rc →
          rmIdx first ≤ rmIdx rc) ∧
        ((processPromotion 0 2 bC4).leadsToChoice = true ↔
          ∃ rc, IsMatch { color := Color.white, number := 5, promoted := true } bC4 rc ∧
            rc ≠ first)) ∧
    ((({ color := Color.black, number := 5, promoted := false } : Piece).promoted = true ∨
        isPromotionRow Color.black 4 = false) →
      (simulateFullMove 3 3 4 3 Color.black bC4).leadsToChoiceForThisPlayer = false ∧
      ∃ tb, (simulateFullMove 3 3 4 3 Color.black bC4).tempBoard = some tb ∧
        tb 4 3 = some { color := Color.black, number := 5, promoted := false }) ∧
    ((({ color := Color.black, number := 5, promoted := false } : Piece).promoted = false ∧
        isPromotionRow Color.black 4 = true) →
      ∃ tb, (simulateFullMove 3 3 4 3 Color.black bC4).tempBoard = some tb ∧
        tb 4 3 = some { color := Color.black, number := 5, promoted := true })) :=
  ⟨by decide, by decide, by decide, by decide,
    C4_promotion_pass bC4 0 2 { color := Color.white, number := 5, promoted := true }
      (by decide) bC4 { color := Color.black, number := 5, promoted := false } Color.black
      3 3 4 3 (by decide) (by decide) (by decide)⟩

/-! ## Move generator soundness and the invalid-move sentinel (claim C5) -/

/-- Destinations produced by `getValidMovesOnBoard` are empty squares. -/
theorem mem_getValidMovesOnBoard_empty (row col : Fin 8) (bS : Board) (pc : Color)
    (mv : Fin 8 × Fin 8) (h : mv ∈ getValidMovesOnBoard row col bS pc) :
    bS mv.1 mv.2 = none := by
  unfold getValidMovesOnBoard at h
  dsimp only at h
  cases hrow : toFin8 ((row.val : Int) + if pc = .white then -1 else 1) with
  | none => simp only [hrow] at h; cases h
  | some newRow =>
    simp only [hrow] at h
    rcases List.mem_append.mp h with h1 | h2
    · by_cases hb : bS newRow col = none
      · rw [if_pos hb] at h1
        rcases List.mem_singleton.mp h1 with rfl
        exact hb
      · rw [if_neg hb] at h1
        cases h1
    · rcases List.mem_flatMap.mp h2 with ⟨d, -, hd⟩
      cases hcol : toFin8 ((col.val : Int) + d) with
      | none => simp only [hcol] at hd; cases hd
      | some newCol =>
        simp only [hcol] at hd
        by_cases hb : bS newRow newCol = none
        · rw [if_pos hb] at hd
          rcases List.mem_singleton.mp hd with rfl
          exact hb
        · rw [if_neg hb] at hd
          cases hd

/-- Moves produced by `getAllPossibleMovesForPlayerOnBoard` carry the
generator's guarantees: own piece at the origin, empty destination. -/
theorem mem_generator_onboard (c : Color) (b : Board) (m : Move)
    (h : m ∈ getAllPossibleMovesForPlayerOnBoard c b) :
    b m.fromRow m.fromCol = some m.piece ∧ m.piece.color = c ∧ b m.toRow m.toCol = none := by
  unfold getAllPossibleMovesForPlayerOnBoard at h
  rcases List.mem_flatMap.mp h with ⟨rc, -, hrc⟩
  cases hb : b rc.1 rc.2 with
  | none => simp only [hb] at hrc; cases hrc
  | some piece =>
    simp only [hb] at hrc
    by_cases hc : piece.color = c
    · rw [if_pos hc] at hrc
      rcases List.mem_map.mp hrc with ⟨mv, hmv, rfl⟩
      exact ⟨hb, hc, mem_getValidMovesOnBoard_empty rc.1 rc.2 b piece.color mv hmv⟩
    · rw [if_neg hc] at hrc
      cases hrc

/-- Moves produced by `getAllPossibleMovesForPlayer` carry the same
guarantees (the per-piece generator is called with the piece's own color). -/
theorem mem_generator (c : Color) (b : Board) (m : Move)
    (h : m ∈ getAllPossibleMovesForPlayer c b) :
    b m.fromRow m.fromCol = some m.piece ∧ m.piece.color = c ∧ b m.toRow m.toCol = none := by
  unfold getAllPossibleMovesForPlayer at h
  rcases List.mem_flatMap.mp h with ⟨rc, -, hrc⟩
  cases hb : b rc.1 rc.2 with
  | none => simp only [hb] at hrc; cases hrc
  | some piece =>
    simp only [hb] at hrc
    by_cases hc : piece.color = c
    · rw [if_pos hc] at hrc
      rcases List.mem_map.mp hrc with ⟨mv, hmv, rfl⟩
      refine ⟨hb, hc, ?_⟩
      unfold getValidMoves at hmv
      rw [hb] at hmv
      exact mem_getValidMovesOnBoard_empty rc.1 rc.2 b piece.color mv hmv
    · rw [if_neg hc] at hrc
      cases hrc

/-- Claim C5: `simulateFullMove` returns the invalid-move sentinel (null
board, score gain −Infinity) iff the origin is empty, holds a piece of a
different color than the mover, or the destination is occupied; and never on
a move produced by the move generator for that color and board. -/
theorem C5_invalid_sentinel (b : Board) (c : Color) (frR frC toR toC : Fin 8) :
    (simulateFullMove frR frC toR toC c b = invalidSim ↔
      (b frR frC = none ∨ (∃ p, b frR frC = some p ∧ p.color ≠ c) ∨ b toR toC ≠ none)) ∧
    (∀ m ∈ getAllPossibleMovesForPlayerOnBoard c b,
      simulateFullMove m.fromRow m.fromCol m.toRow m.toCol c b ≠ invalidSim) := by
  have main : ∀ fr1 fc1 tr1 tc1 : Fin 8,
      simulateFullMove fr1 fc1 tr1 tc1 c b = invalidSim ↔
        (b fr1 fc1 = none ∨ (∃ p, b fr1 fc1 = some p ∧ p.color ≠ c) ∨ b tr1 tc1 ≠ none) := by
    intro fr1 fc1 tr1 tc1
    cases hfr : b fr1 fc1 with
    | none =>
      constructor
      · intro _; exact Or.inl rfl
      · intro _
        unfold simulateFullMove
        simp only [hfr]
    | some p =>
      by_cases hcol : p.color = c
      · cases hdest : b tr1 tc1 with
        | none =>
          rw [simulateFullMove_success b p c fr1 fc1 tr1 tc1 hfr hcol hdest]
          constructor
          · intro hbad
            have := congrArg SimResult.tempBoard hbad
            simp [successSim, invalidSim] at this
          · rintro (h1 | ⟨q, hq, hqc⟩ | h3)
            · cases h1
            · cases hq; exact absurd hcol hqc
            · exact absurd rfl h3
        | some q =>
          constructor
          · intro _
            exact Or.inr (Or.inr (by simp))
          · intro _
            unfold simulateFullMove
            simp only [hfr, hdest]
            rw [if_neg (by rw [hcol]; simp : ¬p.color ≠ c)]
            rw [if_pos (by simp : (some q : Option Piece) ≠ none)]
      · constructor
        · intro _
          exact Or.inr (Or.inl ⟨p, rfl, hcol⟩)
        · intro _
          unfold simulateFullMove
          simp only [hfr]
          rw [if_pos hcol]
  refine ⟨main frR frC toR toC, ?_⟩
  intro m hm
  obtain ⟨h1, h2, h3⟩ := mem_generator_onboard c b m hm
  intro hbad
  rcases (main m.fromRow m.fromCol m.toRow m.toCol).mp hbad with hx | ⟨p, hp, hpc⟩ | hx
  · rw [h1] at hx; cases hx
  · rw [h1] at hp; cases hp; exact hpc h2
  · exact hx h3

/-- Witness for C5: the generated Black step (3,3) → (4,3) on the C4 board
is not the sentinel, and a wrong-color simulation on the same board is. -/
theorem C5_invalid_sentinel_witness :
    ({ fromRow := 3, fromCol := 3, toRow := 4, toCol := 3,
        piece := { color := Color.black, number := 5, promoted := false } } : Move) ∈
      getAllPossibleMovesForPlayerOnBoard Color.black bC4 ∧
    simulateFullMove 3 3 4 3 Color.black bC4 ≠ invalidSim ∧
    simulateFullMove 3 3 4 3 Color.white bC4 = invalidSim :=
  have hmem : ({ fromRow := 3, fromCol := 3, toRow := 4, toCol := 3,
                 piece := { color := Color.black, number := 5, promoted := false } } : Move) ∈
      getAllPossibleMovesForPlayerOnBoard Color.black bC4 := by decide
  ⟨hmem,
   (C5_invalid_sentinel bC4 Color.black 3 3 4 3).2 _ hmem,
   ((C5_invalid_sentinel bC4 Color.white 3 3 4 3).1).mpr
     (Or.inr (Or.inl ⟨{ color := Color.black, number := 5, promoted := false },
       by decide, by decide⟩))⟩

/-! ## Connectivity of combinations (claim C3) -/

/-- 8-directional adjacency of two distinct squares (integer coordinates,
matching the string-keyed neighborhood probes of the BFS). -/
def Adj (a b : Int × Int) : Prop :=
  a ≠ b ∧ (a.1 - b.1).natAbs ≤ 1 ∧ (a.2 - b.2).natAbs ≤ 1

/-- The position multiset of a cluster. -/
def keys (ps : List PD) : List (Int × Int) := ps.map pdKey

/-- One adjacency step inside a position set. -/
def Step (S : List (Int × Int)) (a b : Int × Int) : Prop := a ∈ S ∧ b ∈ S ∧ Adj a b

/-- Declarative connectivity: every two members of the cluster are joined by
a chain of 8-adjacent cluster members. -/
def ConnectedCluster (ps : List PD) : Prop :=
  ∀ p ∈ ps, ∀ q ∈ ps, Relation.ReflTransGen (Step (keys ps)) (pdKey p) (pdKey q)

theorem Adj.symm_ {a b : Int × Int} (h : Adj a b) : Adj b a := by
  obtain ⟨h1, h2, h3⟩ := h
  exact ⟨fun e => h1 e.symm, by omega, by omega⟩

theorem step_symmetric (S : List (Int × Int)) : Symmetric (Step S) := by
  rintro a b ⟨h1, h2, h3⟩
  exact ⟨h2, h1, h3.symm_⟩

/-- A square is adjacent to `a` exactly when it is one of the eight delta
offsets of `a`. -/
theorem adj_iff_delta (a k : Int × Int) :
    Adj a k ↔ ∃ d ∈ deltas, k = (a.1 + d.1, a.2 + d.2) := by
  constructor
  · rintro ⟨hne, h1, h2⟩
    have hback : k = (a.1 + (k.1 - a.1), a.2 + (k.2 - a.2)) := by
      have e1 : a.1 + (k.1 - a.1) = k.1 := by omega
      have e2 : a.2 + (k.2 - a.2) = k.2 := by omega
      rw [e1, e2]
    refine ⟨(k.1 - a.1, k.2 - a.2), ?_, hback⟩
    have hnz : k.1 - a.1 ≠ 0 ∨ k.2 - a.2 ≠ 0 := by
      by_contra hcon
      push_neg at hcon
      apply hne
      have e1 : a.1 = k.1 := by omega
      have e2 : a.2 = k.2 := by omega
      calc a = (a.1, a.2) := rfl
        _ = (k.1, k.2) := by rw [e1, e2]
        _ = k := rfl
    have hd1 : k.1 - a.1 = -1 ∨ k.1 - a.1 = 0 ∨ k.1 - a.1 = 1 := by omega
    have hd2 : k.2 - a.2 = -1 ∨ k.2 - a.2 = 0 ∨ k.2 - a.2 = 1 := by omega
    rcases hd1 with h | h | h <;> rcases hd2 with g | g | g <;> rw [h, g] <;>
      first
        | decide
        | (exfalso; rcases hnz with hz | hz <;> omega)
  · rintro ⟨d, hd, rfl⟩
    fin_cases hd <;>
      refine ⟨?_, ?_, ?_⟩ <;>
        first
          | (intro he; rw [Prod.ext_iff] at he; simp only [] at he; omega)
          | (simp only []; omega)

theorem find?_of_mem_keys (ps : List PD) (k : Int × Int) (h : k ∈ ps.map pdKey) :
    ∃ x, ps.find? (fun p => pdKey p = k) = some x ∧ x ∈ ps ∧ pdKey x = k := by
  rcases List.mem_map.mp h with ⟨y, hy, hyk⟩
  have hsome : (ps.find? (fun p => pdKey p = k)).isSome := by
    rw [List.find?_isSome]
    exact ⟨y, hy, decide_eq_true hyk⟩
  rcases Option.isSome_iff_exists.mp hsome with ⟨x, hx⟩
  have hpx := List.find?_some hx
  exact ⟨x, hx, List.mem_of_find?_eq_some hx, of_decide_eq_true hpx⟩

/-- Behaviour of a run of neighbor probes, by induction over the pending
delta list: the visited list only grows, stays duplicate-free, gains only
in-cluster keys at probed offsets, covers every in-cluster probed offset,
enqueues exactly the entries of newly visited keys, and grows the visited
and queue lists in lockstep. -/
theorem probeFold_spec (ps : List PD) (c : PD) :
    ∀ (ds : List (Int × Int)) (v : List (Int × Int)) (nq : List PD),
      (∃ ext, (ds.foldl (probeStep ps c) (v, nq)).1 = v ++ ext) ∧
      (v.Nodup → (ds.foldl (probeStep ps c) (v, nq)).1.Nodup) ∧
      (∀ k ∈ (ds.foldl (probeStep ps c) (v, nq)).1,
        k ∈ v ∨ (k ∈ keys ps ∧
          ∃ d ∈ ds, k = kShift c d)) ∧
      (∀ d ∈ ds, (kShift c d) ∈ keys ps →
        (kShift c d) ∈
          (ds.foldl (probeStep ps c) (v, nq)).1) ∧
      (∀ x ∈ (ds.foldl (probeStep ps c) (v, nq)).2,
        x ∈ nq ∨ (x ∈ ps ∧ pdKey x ∈ (ds.foldl (probeStep ps c) (v, nq)).1)) ∧
      ((ds.foldl (probeStep ps c) (v, nq)).1.length + nq.length =
        v.length + (ds.foldl (probeStep ps c) (v, nq)).2.length) ∧
      (∃ qext, (ds.foldl (probeStep ps c) (v, nq)).2 = nq ++ qext) ∧
      (∀ k ∈ (ds.foldl (probeStep ps c) (v, nq)).1,
        k ∈ v ∨ ∃ x ∈ (ds.foldl (probeStep ps c) (v, nq)).2, pdKey x = k) := by
  intro ds
  induction ds with
  | nil =>
    intro v nq
    refine ⟨⟨[], by simp⟩, fun h => h, fun k hk => Or.inl hk, ?_, fun x hx => Or.inl hx, rfl,
      ⟨[], by simp⟩, fun k hk => Or.inl hk⟩
    intro d hd
    cases hd
  | cons d ds ih =>
    intro v nq
    rw [List.foldl_cons]
    have hkdef : probeStep ps c (v, nq) d =
        if (kShift c d) ∈ ps.map pdKey ∧
            (kShift c d) ∉ v then
          match ps.find? (fun p => pdKey p =
              (kShift c d)) with
          | some x => (v ++ [(kShift c d)], nq ++ [x])
          | none => (v, nq)
        else (v, nq) := rfl
    by_cases hcond : (kShift c d) ∈ ps.map pdKey ∧
        (kShift c d) ∉ v
    · obtain ⟨x, hfind, hxps, hxk⟩ := find?_of_mem_keys ps _ hcond.1
      have hstep : probeStep ps c (v, nq) d =
          (v ++ [(kShift c d)], nq ++ [x]) := by
        rw [hkdef, if_pos hcond, hfind]
      rw [hstep]
      obtain ⟨ih1, ih2, ih3, ih4, ih5, ih6, ih7, ih8⟩ :=
        ih (v ++ [(kShift c d)]) (nq ++ [x])
      refine ⟨?_, ?_, ?_, ?_, ?_, ?_, ?_, ?_⟩
      · rcases ih1 with ⟨ext, hext⟩
        exact ⟨[kShift c d] ++ ext, by rw [hext, List.append_assoc]⟩
      · intro hv
        refine ih2 ?_
        rw [← List.concat_eq_append]
        exact hv.concat hcond.2
      · intro k hk
        rcases ih3 k hk with hkv | ⟨hk1, d2, hd2, hk2⟩
        · rcases List.mem_append.mp hkv with h1 | h2
          · exact Or.inl h1
          · rcases List.mem_singleton.mp h2 with rfl
            exact Or.inr ⟨hcond.1, d, List.mem_cons_self _ _, rfl⟩
        · exact Or.inr ⟨hk1, d2, List.mem_cons_of_mem _ hd2, hk2⟩
      · intro d2 hd2 hkd2
        rcases List.mem_cons.mp hd2 with rfl | hd2
        · rcases ih1 with ⟨ext, hext⟩
          rw [hext]
          exact List.mem_append.mpr (Or.inl (List.mem_append.mpr (Or.inr (by simp))))
        · exact ih4 d2 hd2 hkd2
      · intro y hy
        rcases ih5 y hy with hynq | hyin
        · rcases List.mem_append.mp hynq with h1 | h2
          · exact Or.inl h1
          · rcases List.mem_singleton.mp h2 with rfl
            refine Or.inr ⟨hxps, ?_⟩
            rcases ih1 with ⟨ext, hext⟩
            rw [hext, hxk]
            exact List.mem_append.mpr (Or.inl (List.mem_append.mpr (Or.inr (by simp))))
        · exact Or.inr hyin
      · simp only [List.length_append, List.length_singleton] at ih6
        omega
      · rcases ih7 with ⟨qext, hqext⟩
        exact ⟨[x] ++ qext, by rw [hqext, List.append_assoc]⟩
      · intro k hk
        rcases ih8 k hk with hkv | hx2
        · rcases List.mem_append.mp hkv with h1 | h2
          · exact Or.inl h1
          · rcases List.mem_singleton.mp h2 with rfl
            refine Or.inr ⟨x, ?_, hxk⟩
            rcases ih7 with ⟨qext, hqext⟩
            rw [hqext]
            exact List.mem_append.mpr (Or.inl (List.mem_append.mpr (Or.inr (by simp))))
        · exact Or.inr hx2
    · have hstep : probeStep ps c (v, nq) d = (v, nq) := by
        rw [hkdef, if_neg hcond]
      rw [hstep]
      obtain ⟨ih1, ih2, ih3, ih4, ih5, ih6, ih7, ih8⟩ := ih v nq
      refine ⟨ih1, ih2, ?_, ?_, ih5, ih6, ih7, ih8⟩
      · intro k hk
        rcases ih3 k hk with h1 | ⟨h1, d2, hd2, h2⟩
        · exact Or.inl h1
        · exact Or.inr ⟨h1, d2, List.mem_cons_of_mem _ hd2, h2⟩
      · intro d2 hd2 hkd2
        rcases List.mem_cons.mp hd2 with rfl | hd2
        · have hkv : (kShift c d2) ∈ v := by
            by_contra hnv
            exact hcond ⟨hkd2, hnv⟩
          rcases ih1 with ⟨ext, hext⟩
          rw [hext]
          exact List.mem_append.mpr (Or.inl hkv)
        · exact ih4 d2 hd2 hkd2

theorem kShift_eq (c : PD) (d : Int × Int) :
    kShift c d = ((pdKey c).1 + d.1, (pdKey c).2 + d.2) := rfl

/-- A duplicate-free list contained in `S` is no longer than `S.dedup`. -/
theorem nodup_subset_length_le {α : Type} [DecidableEq α] (l S : List α)
    (hnd : l.Nodup) (hsub : ∀ x ∈ l, x ∈ S) : l.length ≤ S.dedup.length := by
  have h1 : l.toFinset.card = l.length := List.toFinset_card_of_nodup hnd
  have h2 : l.toFinset ⊆ S.toFinset := by
    intro a ha
    rw [List.mem_toFinset] at ha ⊢
    exact hsub a ha
  have h3 : S.toFinset.card = S.dedup.length := List.card_toFinset S
  have := Finset.card_le_card h2
  omega

/-- The BFS loop invariant of `areConnectedOptimized`: the visited key list
is duplicate-free, contained in the cluster's key set, reachable from the
start key, queue entries are visited cluster members, and every visited key
is either still pending in the queue or already has all its in-cluster
neighbors visited. -/
structure BfsInv (ps : List PD) (k0 : Int × Int) (q : List PD) (vis : List (Int × Int)) :
    Prop where
  nodup : vis.Nodup
  subS : ∀ k ∈ vis, k ∈ keys ps
  queue : ∀ x ∈ q, x ∈ ps ∧ pdKey x ∈ vis
  sound : ∀ k ∈ vis, Relation.ReflTransGen (Step (keys ps)) k0 k
  frontier : ∀ k ∈ vis, (∃ x ∈ q, pdKey x = k) ∨ ∀ k2 ∈ keys ps, Adj k k2 → k2 ∈ vis

/-- With enough fuel the BFS drains its queue and computes a duplicate-free,
adjacency-closed, sound superset of the visited keys. -/
theorem bfsLoop_spec (ps : List PD) (k0 : Int × Int) :
    ∀ (fuel : Nat) (q : List PD) (vis : List (Int × Int)),
      BfsInv ps k0 q vis →
      q.length + 2 * ((keys ps).dedup.length - vis.length) ≤ fuel →
      (∃ ext, bfsLoop ps fuel q vis = vis ++ ext) ∧
      (bfsLoop ps fuel q vis).Nodup ∧
      (∀ k ∈ bfsLoop ps fuel q vis, k ∈ keys ps) ∧
      (∀ k ∈ bfsLoop ps fuel q vis, Relation.ReflTransGen (Step (keys ps)) k0 k) ∧
      (∀ k ∈ bfsLoop ps fuel q vis, ∀ k2 ∈ keys ps, Adj k k2 → k2 ∈ bfsLoop ps fuel q vis) := by
  intro fuel
  induction fuel with
  | zero =>
    intro q vis inv hfuel
    have hq : q = [] := by
      cases q with
      | nil => rfl
      | cons a l => simp at hfuel
    subst hq
    refine ⟨⟨[], by simp [bfsLoop]⟩, by simp [bfsLoop, inv.nodup], ?_, ?_, ?_⟩
    · intro k hk
      exact inv.subS k (by simpa [bfsLoop] using hk)
    · intro k hk
      exact inv.sound k (by simpa [bfsLoop] using hk)
    · intro k hk k2 hk2 hadj
      have hk' : k ∈ vis := by simpa [bfsLoop] using hk
      rcases inv.frontier k hk' with ⟨x, hx, -⟩ | hclosed
      · cases hx
      · simpa [bfsLoop] using hclosed k2 hk2 hadj
  | succ fuel ih =>
    intro q vis inv hfuel
    cases q with
    | nil =>
      refine ⟨⟨[], by simp [bfsLoop]⟩, by simp [bfsLoop, inv.nodup], ?_, ?_, ?_⟩
      · intro k hk
        exact inv.subS k (by simpa [bfsLoop] using hk)
      · intro k hk
        exact inv.sound k (by simpa [bfsLoop] using hk)
      · intro k hk k2 hk2 hadj
        have hk' : k ∈ vis := by simpa [bfsLoop] using hk
        rcases inv.frontier k hk' with ⟨x, hx, -⟩ | hclosed
        · cases hx
        · simpa [bfsLoop] using hclosed k2 hk2 hadj
    | cons c q' =>
      obtain ⟨P1, P2, P3, P4, P5, P6, P7, P8⟩ := probeFold_spec ps c deltas vis []
      have hcps : c ∈ ps := (inv.queue c (by simp)).1
      have hcvis : pdKey c ∈ vis := (inv.queue c (by simp)).2
      have hckey : pdKey c ∈ keys ps := inv.subS _ hcvis
      have hstep : bfsLoop ps (fuel + 1) (c :: q') vis =
          bfsLoop ps fuel (q' ++ (deltas.foldl (probeStep ps c) (vis, [])).2)
            (deltas.foldl (probeStep ps c) (vis, [])).1 := rfl
      set s1 := (deltas.foldl (probeStep ps c) (vis, [])).1 with hs1
      set s2 := (deltas.foldl (probeStep ps c) (vis, [])).2 with hs2
      rcases P1 with ⟨ext0, hext0⟩
      have hvis_sub : ∀ k ∈ vis, k ∈ s1 := by
        intro k hk
        rw [hext0]
        exact List.mem_append.mpr (Or.inl hk)
      have hnew_adj : ∀ k ∈ s1, k ∈ vis ∨ (k ∈ keys ps ∧ Adj (pdKey c) k) := by
        intro k hk
        rcases P3 k hk with h1 | ⟨h1, d, hd, h2⟩
        · exact Or.inl h1
        · refine Or.inr ⟨h1, ?_⟩
          rw [adj_iff_delta]
          exact ⟨d, hd, by rw [h2, kShift_eq]⟩
      have hclosed_c : ∀ k2 ∈ keys ps, Adj (pdKey c) k2 → k2 ∈ s1 := by
        intro k2 hk2 hadj
        rcases (adj_iff_delta (pdKey c) k2).mp hadj with ⟨d, hd, rfl⟩
        rw [← kShift_eq] at hk2
        exact P4 d hd hk2
      have inv2 : BfsInv ps k0 (q' ++ s2) s1 := by
        refine ⟨P2 inv.nodup, ?_, ?_, ?_, ?_⟩
        · intro k hk
          rcases hnew_adj k hk with h1 | ⟨h1, -⟩
          · exact inv.subS k h1
          · exact h1
        · intro x hx
          rcases List.mem_append.mp hx with h1 | h2
          · obtain ⟨ha, hb⟩ := inv.queue x (by simp [h1])
            exact ⟨ha, hvis_sub _ hb⟩
          · rcases P5 x h2 with h3 | h3
            · cases h3
            · exact h3
        · intro k hk
          rcases hnew_adj k hk with h1 | ⟨h1, hadj⟩
          · exact inv.sound k h1
          · exact (inv.sound _ hcvis).tail ⟨hckey, h1, hadj⟩
        · intro k hk
          by_cases hkv : k ∈ vis
          · rcases inv.frontier k hkv with ⟨x, hx, hpx⟩ | hclosed
            · rcases List.mem_cons.mp hx with rfl | hx'
              · refine Or.inr ?_
                intro k2 hk2 hadj
                rw [← hpx] at hadj
                exact hclosed_c k2 hk2 hadj
              · exact Or.inl ⟨x, List.mem_append.mpr (Or.inl hx'), hpx⟩
            · exact Or.inr fun k2 hk2 hadj => hvis_sub k2 (hclosed k2 hk2 hadj)
          · rcases P8 k hk with h1 | ⟨x, hx, hpx⟩
            · exact absurd h1 hkv
            · exact Or.inl ⟨x, List.mem_append.mpr (Or.inr hx), hpx⟩
      have hlen : s1.length = vis.length + s2.length := by
        simpa using P6
      have hcard : s1.length ≤ (keys ps).dedup.length :=
        nodup_subset_length_le s1 (keys ps) inv2.nodup inv2.subS
      have hfuel2 : (q' ++ s2).length + 2 * ((keys ps).dedup.length - s1.length) ≤ fuel := by
        rw [List.length_append]
        simp only [List.length_cons] at hfuel
        omega
      obtain ⟨Q1, Q2, Q3, Q4, Q5⟩ := ih (q' ++ s2) s1 inv2 hfuel2
      rw [hstep]
      refine ⟨?_, Q2, Q3, Q4, Q5⟩
      rcases Q1 with ⟨ext1, hext1⟩
      exact ⟨ext0 ++ ext1, by rw [hext1, hext0, List.append_assoc]⟩

/-- The BFS connectivity check agrees with declarative connectivity on
clusters with duplicate-free position sets (which all window sublists are). -/
theorem areConnected_iff (ps : List PD) (hnd : (keys ps).Nodup) :
    areConnectedOptimized ps = true ↔ ConnectedCluster ps := by
  by_cases hlen : ps.length ≤ 1
  · cases ps with
    | nil =>
      simp only [areConnectedOptimized, if_pos hlen, true_iff]
      intro p hp
      cases hp
    | cons p0 rest =>
      have hrest : rest = [] := by
        cases rest with
        | nil => rfl
        | cons a l => simp at hlen
      subst hrest
      simp only [areConnectedOptimized, if_pos hlen, true_iff]
      intro p hp q hq
      rcases List.mem_singleton.mp hp with rfl
      rcases List.mem_singleton.mp hq with rfl
      exact Relation.ReflTransGen.refl
  · cases ps with
    | nil => simp at hlen
    | cons p0 rest =>
      have hScard : (keys (p0 :: rest)).dedup.length = (p0 :: rest).length := by
        rw [hnd.dedup]
        exact List.length_map _ _
      have hinv : BfsInv (p0 :: rest) (pdKey p0) [p0] [pdKey p0] := by
        refine ⟨List.nodup_singleton _, ?_, ?_, ?_, ?_⟩
        · intro k hk
          rcases List.mem_singleton.mp hk with rfl
          exact List.mem_map.mpr ⟨p0, by simp, rfl⟩
        · intro x hx
          rcases List.mem_singleton.mp hx with rfl
          exact ⟨by simp, by simp⟩
        · intro k hk
          rcases List.mem_singleton.mp hk with rfl
          exact Relation.ReflTransGen.refl
        · intro k hk
          rcases List.mem_singleton.mp hk with rfl
          exact Or.inl ⟨p0, by simp, rfl⟩
      have hfuel : ([p0] : List PD).length +
          2 * ((keys (p0 :: rest)).dedup.length - ([pdKey p0] : List (Int × Int)).length) ≤
          2 * (p0 :: rest).length + 2 := by
        simp only [List.length_singleton, hScard]
        omega
      obtain ⟨⟨ext, hext⟩, hRnd, hRsub, hRsound, hRclosed⟩ :=
        bfsLoop_spec (p0 :: rest) (pdKey p0) (2 * (p0 :: rest).length + 2) [p0] [pdKey p0]
          hinv hfuel
      set r := bfsLoop (p0 :: rest) (2 * (p0 :: rest).length + 2) [p0] [pdKey p0] with hr
      have hk0r : pdKey p0 ∈ r := by
        rw [hext]
        simp
      have hreach_sub : ∀ k, Relation.ReflTransGen (Step (keys (p0 :: rest))) (pdKey p0) k →
          k ∈ r := by
        intro k hk
        induction hk with
        | refl => exact hk0r
        | tail _ hstep ihk => exact hRclosed _ ihk _ hstep.2.1 hstep.2.2
      have hlconv : areConnectedOptimized (p0 :: rest) = true ↔ r.length = (p0 :: rest).length := by
        simp only [areConnectedOptimized, if_neg hlen, ← hr]
        exact decide_eq_true_iff
      rw [hlconv]
      constructor
      · intro heq p hp q hq
        have hsub2 : ∀ k ∈ keys (p0 :: rest), k ∈ r := by
          have h1 : r.toFinset ⊆ (keys (p0 :: rest)).toFinset := by
            intro a ha
            rw [List.mem_toFinset] at ha ⊢
            exact hRsub a ha
          have hcr : r.toFinset.card = r.length := List.toFinset_card_of_nodup hRnd
          have hcs : (keys (p0 :: rest)).toFinset.card = (keys (p0 :: rest)).length :=
            List.toFinset_card_of_nodup hnd
          have hlk : (keys (p0 :: rest)).length = (p0 :: rest).length := List.length_map _ _
          have heqf : r.toFinset = (keys (p0 :: rest)).toFinset :=
            Finset.eq_of_subset_of_card_le h1 (by omega)
          intro k hk
          rw [← List.mem_toFinset, ← heqf, List.mem_toFinset] at hk
          exact hk
        have hkp : Relation.ReflTransGen (Step (keys (p0 :: rest))) (pdKey p0) (pdKey p) :=
          hRsound _ (hsub2 _ (List.mem_map.mpr ⟨p, hp, rfl⟩))
        have hkq : Relation.ReflTransGen (Step (keys (p0 :: rest))) (pdKey p0) (pdKey q) :=
          hRsound _ (hsub2 _ (List.mem_map.mpr ⟨q, hq, rfl⟩))
        exact Relation.ReflTransGen.trans
          (Relation.ReflTransGen.symmetric (step_symmetric _) hkp) hkq
      · intro hcc
        have hsub2 : ∀ k ∈ keys (p0 :: rest), k ∈ r := by
          intro k hk
          rcases List.mem_map.mp hk with ⟨q, hq, rfl⟩
          exact hreach_sub _ (hcc p0 (by simp) q hq)
        have h1 : r.length ≤ (keys (p0 :: rest)).dedup.length :=
          nodup_subset_length_le r _ hRnd hRsub
        have h2 : (keys (p0 :: rest)).length ≤ r.dedup.length :=
          nodup_subset_length_le _ r hnd hsub2
        rw [hRnd.dedup] at h2
        have hlk : (keys (p0 :: rest)).length = (p0 :: rest).length := List.length_map _ _
        omega

theorem selectByMask_sublist : ∀ (m : Nat) (ps : List PD), (selectByMask m ps).Sublist ps := by
  intro m ps
  induction ps generalizing m with
  | nil => simp [selectByMask]
  | cons pd rest ih =>
    unfold selectByMask
    by_cases h : m % 2 = 1
    · rw [if_pos h]
      exact (ih (m / 2)).cons₂ pd
    · rw [if_neg h]
      exact (ih (m / 2)).cons pd

theorem exists_mask_of_sublist {c ps : List PD} (h : c.Sublist ps) :
    ∃ m, m < 2 ^ ps.length ∧ selectByMask m ps = c := by
  induction h with
  | slnil => exact ⟨0, by simp, rfl⟩
  | cons a h ih =>
    obtain ⟨m, hm, hsel⟩ := ih
    refine ⟨2 * m, ?_, ?_⟩
    · simp only [List.length_cons, Nat.pow_succ]
      omega
    · unfold selectByMask
      rw [if_neg (by omega)]
      rw [Nat.mul_div_cancel_left m (by norm_num : 0 < 2)]
      exact hsel
  | cons₂ a h ih =>
    obtain ⟨m, hm, hsel⟩ := ih
    refine ⟨2 * m + 1, ?_, ?_⟩
    · simp only [List.length_cons, Nat.pow_succ]
      omega
    · unfold selectByMask
      rw [if_pos (by omega)]
      have : (2 * m + 1) / 2 = m := by omega
      rw [this, hsel]

theorem selectByMask_zero : ∀ ps : List PD, selectByMask 0 ps = [] := by
  intro ps
  induction ps with
  | nil => rfl
  | cons pd rest ih => simp [selectByMask, ih]

theorem selectByMask_one_le : ∀ ps : List PD, (selectByMask 1 ps).length ≤ 1 := by
  intro ps
  cases ps with
  | nil => simp [selectByMask]
  | cons pd rest => simp [selectByMask, selectByMask_zero]

theorem selectByMask_small {m : Nat} (h : m < 3) (ps : List PD) :
    (selectByMask m ps).length ≤ 1 := by
  interval_cases m
  · rw [selectByMask_zero]; simp
  · exact selectByMask_one_le ps
  · cases ps with
    | nil => simp [selectByMask]
    | cons pd rest =>
      unfold selectByMask
      rw [if_neg (by omega)]
      exact selectByMask_one_le rest

/-- Membership in `findValidCombinations`: exactly the subsequences of the
input of size 2..8 summing to 10 with both colors present and a connected
position set (as computed by the BFS). -/
theorem mem_findValidCombinations (ps cmb : List PD) :
    cmb ∈ findValidCombinations ps ↔
      cmb.Sublist ps ∧ 2 ≤ cmb.length ∧ cmb.length ≤ 8 ∧ sumNumbers cmb = 10 ∧
        (∃ pd ∈ cmb, pd.piece.color = Color.white) ∧
        (∃ pd ∈ cmb, pd.piece.color = Color.black) ∧
        areConnectedOptimized cmb = true := by
  unfold findValidCombinations
  rw [List.mem_filterMap]
  constructor
  · rintro ⟨m, hm, hbody⟩
    dsimp only at hbody
    by_cases hsz : (selectByMask m ps).length > 8 ∨ (selectByMask m ps).length < 2
    · rw [if_pos hsz] at hbody; cases hbody
    · rw [if_neg hsz] at hbody
      by_cases hcnd : sumNumbers (selectByMask m ps) = 10 ∧
          ((selectByMask m ps).any fun pd => pd.piece.color = Color.white) ∧
          ((selectByMask m ps).any fun pd => pd.piece.color = Color.black) ∧
          areConnectedOptimized (selectByMask m ps)
      · rw [if_pos hcnd] at hbody
        cases hbody
        obtain ⟨hc1, hc2, hc3, hc4⟩ := hcnd
        push_neg at hsz
        refine ⟨selectByMask_sublist m ps, by omega, by omega, hc1, ?_, ?_, hc4⟩
        · rcases List.any_eq_true.mp hc2 with ⟨pd, hpd, hcol⟩
          exact ⟨pd, hpd, of_decide_eq_true hcol⟩
        · rcases List.any_eq_true.mp hc3 with ⟨pd, hpd, hcol⟩
          exact ⟨pd, hpd, of_decide_eq_true hcol⟩
      · rw [if_neg hcnd] at hbody; cases hbody
  · rintro ⟨hsub, h2, h8, hsum, ⟨pw, hpw, hpwc⟩, ⟨pb, hpb, hpbc⟩, hconn⟩
    obtain ⟨m, hmlt, hsel⟩ := exists_mask_of_sublist hsub
    have hm3 : 3 ≤ m := by
      by_contra hcon
      push_neg at hcon
      have := selectByMask_small hcon ps
      rw [hsel] at this
      omega
    have hps2 : 2 ≤ ps.length := le_trans h2 hsub.length_le
    have hpow : 4 ≤ 2 ^ ps.length := by
      calc (4 : Nat) = 2 ^ 2 := by norm_num
        _ ≤ 2 ^ ps.length := Nat.pow_le_pow_right (by norm_num) hps2
    refine ⟨m, ?_, ?_⟩
    · rw [List.mem_range'_1]
      omega
    · dsimp only
      rw [hsel]
      rw [if_neg (by omega)]
      rw [if_pos ⟨hsum, List.any_eq_true.mpr ⟨pw, hpw, decide_eq_true hpwc⟩,
        List.any_eq_true.mpr ⟨pb, hpb, decide_eq_true hpbc⟩, hconn⟩]

/-- Membership in the combination window: the occupied squares at Chebyshev
distance ≤ 3 from the center. -/
theorem mem_nearbyPieces (bS : Board) (cR cC : Fin 8) (pd : PD) :
    pd ∈ nearbyPieces bS cR cC ↔
      bS pd.row pd.col = some pd.piece ∧
        ((cR.val : Int) - (pd.row.val : Int)).natAbs ≤ 3 ∧
        ((cC.val : Int) - (pd.col.val : Int)).natAbs ≤ 3 := by
  unfold nearbyPieces
  rw [List.mem_filterMap]
  constructor
  · rintro ⟨rc, -, hrc⟩
    by_cases hcnd : ((cR.val : Int) - 3 ≤ (rc.1.val : Int) ∧
          (rc.1.val : Int) ≤ (cR.val : Int) + 3) ∧
        ((cC.val : Int) - 3 ≤ (rc.2.val : Int) ∧ (rc.2.val : Int) ≤ (cC.val : Int) + 3)
    · rw [if_pos hcnd] at hrc
      cases hb : bS rc.1 rc.2 with
      | none => rw [hb] at hrc; cases hrc
      | some piece =>
        rw [hb] at hrc
        cases hrc
        refine ⟨hb, ?_, ?_⟩ <;> dsimp only <;> omega
    · rw [if_neg hcnd] at hrc
      cases hrc
  · rintro ⟨hocc, hr, hc⟩
    refine ⟨(pd.row, pd.col), mem_boardSquares _, ?_⟩
    rw [if_pos (by refine ⟨⟨?_, ?_⟩, ⟨?_, ?_⟩⟩ <;> dsimp only <;> omega)]
    rw [hocc]

/-- The window's positions are pairwise distinct. -/
theorem nearbyPieces_keys_nodup (bS : Board) (cR cC : Fin 8) :
    (keys (nearbyPieces bS cR cC)).Nodup := by
  unfold keys nearbyPieces
  rw [List.map_filterMap]
  refine List.Nodup.filterMap ?_ boardSquares_nodup
  intro a a' b hb hb'
  have hshape : ∀ (rc : Fin 8 × Fin 8) (k : Int × Int),
      k ∈ (Option.map pdKey (if ((cR.val : Int) - 3 ≤ (rc.1.val : Int) ∧
            (rc.1.val : Int) ≤ (cR.val : Int) + 3) ∧
          ((cC.val : Int) - 3 ≤ (rc.2.val : Int) ∧ (rc.2.val : Int) ≤ (cC.val : Int) + 3) then
          match bS rc.1 rc.2 with
          | some piece => some { row := rc.1, col := rc.2, piece := piece }
          | none => none
        else none)) →
      k = ((rc.1.val : Int), (rc.2.val : Int)) := by
    intro rc k hk
    by_cases hcnd : ((cR.val : Int) - 3 ≤ (rc.1.val : Int) ∧
          (rc.1.val : Int) ≤ (cR.val : Int) + 3) ∧
        ((cC.val : Int) - 3 ≤ (rc.2.val : Int) ∧ (rc.2.val : Int) ≤ (cC.val : Int) + 3)
    · rw [if_pos hcnd] at hk
      cases hb2 : bS rc.1 rc.2 with
      | none => rw [hb2] at hk; cases hk
      | some piece =>
        rw [hb2] at hk
        cases hk
        rfl
    · rw [if_neg hcnd] at hk
      cases hk
  have e1 := hshape a b hb
  have e2 := hshape a' b hb'
  rw [e1] at e2
  rw [Prod.ext_iff] at e2 ⊢
  simp only at e2
  constructor
  · exact Fin.ext (by omega)
  · exact Fin.ext (by omega)

/-- Claim C3: the combination pass. The window is exactly the occupied
squares within Chebyshev distance 3 of the destination; a single-colored
window yields no combinations; otherwise the accepted combinations are
exactly the subsequences of the window of size 2..8 whose numbers sum to 10,
containing both colors, whose squares form one connected component under
8-directional adjacency. -/
theorem C3_combination_pass (boardState : Board) (checkRow checkCol : Fin 8) (color : Color) :
    (∀ pd, pd ∈ nearbyPieces boardState checkRow checkCol ↔
      boardState pd.row pd.col = some pd.piece ∧
        ((checkRow.val : Int) - (pd.row.val : Int)).natAbs ≤ 3 ∧
        ((checkCol.val : Int) - (pd.col.val : Int)).natAbs ≤ 3) ∧
    (((∀ pd ∈ nearbyPieces boardState checkRow checkCol, pd.piece.color = Color.white) ∨
      (∀ pd ∈ nearbyPieces boardState checkRow checkCol, pd.piece.color = Color.black)) →
      checkCombinationsAroundPositionOnBoard checkRow checkCol boardState color = []) ∧
    (∀ cmb, cmb ∈ checkCombinationsAroundPositionOnBoard checkRow checkCol boardState color ↔
      cmb.Sublist (nearbyPieces boardState checkRow checkCol) ∧
        2 ≤ cmb.length ∧ cmb.length ≤ 8 ∧ sumNumbers cmb = 10 ∧
        (∃ pd ∈ cmb, pd.piece.color = Color.white) ∧
        (∃ pd ∈ cmb, pd.piece.color = Color.black) ∧
        ConnectedCluster cmb) := by
  refine ⟨mem_nearbyPieces boardState checkRow checkCol, ?_, ?_⟩
  · intro hmono
    unfold checkCombinationsAroundPositionOnBoard
    rw [if_pos ?_]
    rcases hmono with hall | hall
    · refine Or.inr ?_
      intro hany
      rcases List.any_eq_true.mp hany with ⟨pd, hpd, hcol⟩
      have := hall pd hpd
      rw [this] at hcol
      exact absurd (of_decide_eq_true hcol) (by decide)
    · refine Or.inl ?_
      intro hany
      rcases List.any_eq_true.mp hany with ⟨pd, hpd, hcol⟩
      have := hall pd hpd
      rw [this] at hcol
      exact absurd (of_decide_eq_true hcol) (by decide)
  · intro cmb
    unfold checkCombinationsAroundPositionOnBoard
    by_cases hex : ¬((nearbyPieces boardState checkRow checkCol).any fun pd =>
          pd.piece.color = Color.white) ∨
        ¬((nearbyPieces boardState checkRow checkCol).any fun pd =>
          pd.piece.color = Color.black)
    · rw [if_pos hex]
      simp only [List.not_mem_nil, false_iff]
      rintro ⟨hsub, -, -, -, ⟨pw, hpw, hpwc⟩, ⟨pb, hpb, hpbc⟩, -⟩
      rcases hex with hna | hna <;> apply hna
      · exact List.any_eq_true.mpr ⟨pw, hsub.subset hpw, decide_eq_true hpwc⟩
      · exact List.any_eq_true.mpr ⟨pb, hsub.subset hpb, decide_eq_true hpbc⟩
    · rw [if_neg hex]
      rw [mem_findValidCombinations]
      constructor
      · rintro ⟨hsub, h2, h8, hsum, hw, hb, hconn⟩
        have hnd : (keys cmb).Nodup :=
          ((hsub.map pdKey).nodup (nearbyPieces_keys_nodup boardState checkRow checkCol))
        exact ⟨hsub, h2, h8, hsum, hw, hb, (areConnected_iff cmb hnd).mp hconn⟩
      · rintro ⟨hsub, h2, h8, hsum, hw, hb, hconn⟩
        have hnd : (keys cmb).Nodup :=
          ((hsub.map pdKey).nodup (nearbyPieces_keys_nodup boardState checkRow checkCol))
        exact ⟨hsub, h2, h8, hsum, hw, hb, (areConnected_iff cmb hnd).mpr hconn⟩

/-! ## The {White 3, White 3, Black 4} cluster scenario (claim C9) -/

/-- Board for the C9 scenario: White 3s on (5,4) and (4,5), Black 4 on
(4,6); White moves (5,4) → (4,4), completing the connected cluster. -/
def b9 : Board := fun r c =>
  if r = (5 : Fin 8) ∧ c = (4 : Fin 8) then
    some { color := Color.white, number := 3, promoted := false }
  else if r = (4 : Fin 8) ∧ c = (5 : Fin 8) then
    some { color := Color.white, number := 3, promoted := false }
  else if r = (4 : Fin 8) ∧ c = (6 : Fin 8) then
    some { color := Color.black, number := 4, promoted := false }
  else none

/-- The post-move board of the C9 scenario. -/
def b9moved : Board :=
  boardSet (boardSet b9 4 4 (some { color := Color.white, number := 3, promoted := false }))
    5 4 none

/-- The combination window of the C9 scenario, in row-major order. -/
def nP9 : List PD :=
  [{ row := 4, col := 4, piece := { color := Color.white, number := 3, promoted := false } },
   { row := 4, col := 5, piece := { color := Color.white, number := 3, promoted := false } },
   { row := 4, col := 6, piece := { color := Color.black, number := 4, promoted := false } }]

/-- The C9 scenario's final board: only the two White 3s remain. -/
def b9final : Board := fun r c =>
  if r = (4 : Fin 8) ∧ c = (4 : Fin 8) then
    some { color := Color.white, number := 3, promoted := false }
  else if r = (4 : Fin 8) ∧ c = (5 : Fin 8) then
    some { color := Color.white, number := 3, promoted := false }
  else none

unseal Rat.add Rat.mul Rat.inv Rat.sub Nat.gcd in
/-- Counterexample to C9 as stated: capturing the Black 4 of the
{W3, W3, B4} cluster gains 4 points (the captured piece's number), not 2. -/
theorem C9_counterexample :
    (simulateFullMove 5 4 4 4 Color.white b9).aiScoreGain = Val.fin 4 ∧
    Val.fin 4 ≠ Val.fin 2 := by
  constructor <;> decide

unseal Rat.add Rat.mul Rat.inv Rat.sub Nat.gcd in
/-- Claim C9 (amended): under every enumeration order of the window's
pieces, the {W3, W3, B4} cluster is accepted, only the Black piece is
captured, and the gain is 4 points; the simulated move removes exactly the
Black 4 and gains 4. -/
theorem C9_combination_cluster (ps : List PD) (hp : ps.Perm nP9) :
    nP9 = nearbyPieces b9moved 4 4 ∧
    (∃ cmb ∈ findValidCombinations ps, cmb.Perm nP9) ∧
    collectComboCaptures b9moved Color.white (findValidCombinations ps) =
      ([((4 : Fin 8), (6 : Fin 8))], 4) ∧
    (simulateFullMove 5 4 4 4 Color.white b9).tempBoard.isSome = true ∧
    (simulateFullMove 5 4 4 4 Color.white b9).tempBoard.getD emptyBoard = b9final ∧
    (simulateFullMove 5 4 4 4 Color.white b9).aiScoreGain = Val.fin 4 := by
  have hmem : ps ∈ nP9.permutations' := List.mem_permutations'.mpr hp
  have hall : ∀ qs ∈ nP9.permutations',
      (∃ cmb ∈ findValidCombinations qs, cmb.Perm nP9) ∧
      collectComboCaptures b9moved Color.white (findValidCombinations qs) =
        ([((4 : Fin 8), (6 : Fin 8))], 4) := by decide
  obtain ⟨h1, h2⟩ := hall ps hmem
  exact ⟨by decide, h1, h2, by decide, by decide, by decide⟩

/-- Witness for C9 at the identity enumeration order. -/
theorem C9_combination_cluster_witness :
    nP9.Perm nP9 ∧
    ((∃ cmb ∈ findValidCombinations nP9, cmb.Perm nP9) ∧
      collectComboCaptures b9moved Color.white (findValidCombinations nP9) =
        ([((4 : Fin 8), (6 : Fin 8))], 4)) :=
  ⟨by decide, ((C9_combination_cluster nP9 (by decide)).2.1),
    ((C9_combination_cluster nP9 (by decide)).2.2.1)⟩

/-! ## The root-only leadsToChoice special case (claim C6) -/

/-- An all-zero Zobrist table, making search hashes concrete. -/
def Z0 : ZTable := { table := fun _ _ => 0, blackToMove := 0 }

/-- Board for the C6 scenario: White 5 on (1,0) with a single legal move to
(0,0), which promotes and matches both Black 5s (a promotion choice). -/
def b6 : Board := fun r c =>
  if r = (1 : Fin 8) ∧ c = (0 : Fin 8) then
    some { color := Color.white, number := 5, promoted := false }
  else if r = (0 : Fin 8) ∧ c = (1 : Fin 8) then
    some { color := Color.black, number := 5, promoted := false }
  else if r = (5 : Fin 8) ∧ c = (5 : Fin 8) then
    some { color := Color.black, number := 5, promoted := false }
  else none

/-- Game state of the C6 scenario: board `b6`, White to move, scores 0. -/
def g6 : GameState :=
  { board := b6, currentPlayer := Color.white, whiteScore := .fin 0,
    blackScore := .fin 0, gameOver := false }

/-- The single legal White move of the C6 scenario, (1,0) → (0,0). -/
def mv6 : Move :=
  { fromRow := 1, fromCol := 0, toRow := 0, toCol := 0,
    piece := { color := Color.white, number := 5, promoted := false } }

unseal Rat.add Rat.mul Rat.inv Rat.sub Nat.gcd in
/-- Counterexample to C6 as stated: at a recursive alpha-beta node on `g6`,
White's only move reports `leadsToChoice = true` with immediate gain 5, yet
the node's value is 12.7 — the move was recursed into (gain plus the depth-0
evaluation of the child), not valued at its immediate gain. -/
theorem C6_counterexample :
    getAllPossibleMovesForPlayer Color.white b6 = [mv6] ∧
    (simulateFullMove 1 0 0 0 Color.white b6).leadsToChoiceForThisPlayer = true ∧
    (simulateFullMove 1 0 0 0 Color.white b6).aiScoreGain = Val.fin 5 ∧
    (alphaBetaSearch Z0 Color.white 1 g6 .ninf .pinf true 0 ([] : TT)).1 =
      Val.fin (127 / 10) ∧
    Val.fin (127 / 10) ≠ Val.fin 5 := by
  refine ⟨by decide, by decide, by decide, by decide, by decide⟩

unseal Rat.add Rat.mul Rat.inv Rat.sub Nat.gcd in
/-- Claim C6 (amended): only the root move loop special-cases the promotion
choice — for every move whose simulation reports `leadsToChoice = true` the
root valuation is the immediate score gain with no recursion (the table is
returned untouched); recursive alpha-beta nodes ignore the flag and recurse,
as the `g6` node shows: its value differs from its only move's immediate
gain even though that move reports `leadsToChoice = true`. -/
theorem C6_leadsToChoice_root_only
    (Z : ZTable) (game : GameState) (playerColor : Color) (depth : Nat)
    (rootHash : Nat) (move : Move) (tt : TT)
    (h : (simulateFullMove move.fromRow move.fromCol move.toRow move.toCol
          playerColor game.board).leadsToChoiceForThisPlayer = true) :
    rootMoveValue Z game playerColor depth rootHash move tt =
      ((simulateFullMove move.fromRow move.fromCol move.toRow move.toCol
          playerColor game.board).aiScoreGain, tt) ∧
    (alphaBetaSearch Z0 Color.white 1 g6 .ninf .pinf true 0 ([] : TT)).1 ≠
      (simulateFullMove 1 0 0 0 Color.white g6.board).aiScoreGain := by
  constructor
  · simp only [rootMoveValue, h, if_true]
  · decide

/-- Witness for the amended C6 at the `g6` scenario. -/
theorem C6_leadsToChoice_root_only_witness :
    (simulateFullMove mv6.fromRow mv6.fromCol mv6.toRow mv6.toCol
        Color.white g6.board).leadsToChoiceForThisPlayer = true ∧
    rootMoveValue Z0 g6 Color.white 1 0 mv6 [] =
      ((simulateFullMove mv6.fromRow mv6.fromCol mv6.toRow mv6.toCol
          Color.white g6.board).aiScoreGain, ([] : TT)) ∧
    (alphaBetaSearch Z0 Color.white 1 g6 .ninf .pinf true 0 ([] : TT)).1 ≠
      (simulateFullMove 1 0 0 0 Color.white g6.board).aiScoreGain :=
  ⟨by decide, (C6_leadsToChoice_root_only Z0 g6 Color.white 1 0 mv6 [] (by decide)).1,
    (C6_leadsToChoice_root_only Z0 g6 Color.white 1 0 mv6 [] (by decide)).2⟩

/-! ## Transposition-table flags and the original window (claim C7) -/

/-- JS `Math.min(b, Infinity) = b` (NaN included). -/
theorem Val.min_pinf (b : Val) : Val.min b .pinf = b := by
  rcases b with _ | _ | _ | q <;> simp [Val.min, Val.ltb]

/-- JS `Math.min` is associative (NaN absorbs on both sides). -/
theorem Val.min_assoc (a b c : Val) :
    Val.min (Val.min a b) c = Val.min a (Val.min b c) := by
  rcases a with _ | _ | _ | p <;> rcases b with _ | _ | _ | q <;> rcases c with _ | _ | _ | r <;>
    simp [Val.min, Val.ltb] <;> split_ifs <;> simp_all <;> linarith

/-- Away from NaN, `Math.min a b <= b`. -/
theorem Val.leb_min_self {a b : Val} (ha : a ≠ .nan) (hb : b ≠ .nan) :
    Val.leb (Val.min a b) b = true := by
  rcases a with _ | _ | _ | p <;> rcases b with _ | _ | _ | q <;>
    simp_all [Val.min, Val.leb, Val.ltb] <;> split_ifs <;> simp_all <;> linarith

/-- A freshly stored transposition-table entry is the one looked up. -/
theorem ttGet_ttSet (t : TT) (h : Nat) (e : TTEntry) :
    ttGet (ttSet t h e) h = some e := by
  unfold ttGet ttSet
  simp [List.find?]

/-- The maximizing loop never modifies its `beta` variable. -/
theorem abMaxLoop_beta (Z : ZTable)
    (recurse : GameState → Val → Val → Nat → TT → Val × TT)
    (game : GameState) (ch : Nat) :
    ∀ (moves : List Move) (bv a b : Val) (t : TT),
      (abMaxLoop Z recurse game ch moves bv a b t).2.2.1 = b := by
  intro moves
  induction moves with
  | nil => intro bv a b t; rfl
  | cons m rest ih =>
    intro bv a b t
    simp only [abMaxLoop]
    split
    · rfl
    · exact ih _ _ _ _

/-- The minimizing loop's `beta` variable tracks the minimum of the incoming
beta and the running best value: if `b = min b0 bv` on entry then the final
beta is `min b0` of the final best value. -/
theorem abMinLoop_beta (Z : ZTable)
    (recurse : GameState → Val → Val → Nat → TT → Val × TT)
    (game : GameState) (ch : Nat) (b0 : Val) :
    ∀ (moves : List Move) (bv a b : Val) (t : TT), b = Val.min b0 bv →
      (abMinLoop Z recurse game ch moves bv a b t).2.2.1 =
        Val.min b0 (abMinLoop Z recurse game ch moves bv a b t).1 := by
  intro moves
  induction moves with
  | nil => intro bv a b t hb; exact hb
  | cons m rest ih =>
    intro bv a b t hb
    simp only [abMinLoop]
    split
    · simp only []
      rw [hb, Val.min_assoc]
    · apply ih
      rw [hb, Val.min_assoc]

/-- The flag rule exactly as the specification words it: determined by the
node's final value against the ORIGINAL alpha/beta window. -/
def claimedFlag (originalAlpha originalBeta value : Val) : Flag :=
  if Val.leb value originalAlpha then .UPPERBOUND
  else if Val.leb originalBeta value then .LOWERBOUND
  else .EXACT

/-- Claim C7 (amended): a non-terminal node with a cold table stores an entry
holding its value and depth, whose flag is `UPPERBOUND` exactly when the
value is ≤ the ORIGINAL alpha; at a maximizing node the flag follows the
specification's original-window rule, but at a minimizing node the flag is
compared against the loop's FINAL beta — which ends at `min` of the incoming
beta and the node value — so a minimizing node never stores `EXACT` (away
from NaN). -/
theorem C7_flag_window (Z : ZTable) (aiRootColor : Color) (d : Nat)
    (game : GameState) (alpha beta : Val) (isMax : Bool) (currentHash : Nat) (tt : TT)
    (hmiss : ttGet tt currentHash = none)
    (hgo : game.gameOver = false)
    (hmv : hasValidMoves game.currentPlayer game.board = true)
    (hb : beta ≠ .nan)
    (hv : (alphaBetaSearch Z aiRootColor (d + 1) game alpha beta isMax currentHash tt).1 ≠ .nan) :
    ∃ fl : Flag,
      ttGet (alphaBetaSearch Z aiRootColor (d + 1) game alpha beta isMax currentHash tt).2
          currentHash =
        some { value := (alphaBetaSearch Z aiRootColor (d + 1) game alpha beta isMax
                 currentHash tt).1,
               depth := d + 1, flag := fl } ∧
      (fl = .UPPERBOUND ↔
        Val.leb (alphaBetaSearch Z aiRootColor (d + 1) game alpha beta isMax currentHash tt).1
          alpha = true) ∧
      (isMax = true →
        fl = claimedFlag alpha beta
          (alphaBetaSearch Z aiRootColor (d + 1) game alpha beta isMax currentHash tt).1) ∧
      (isMax = false → fl ≠ .EXACT) := by
  have hp : ttProbe tt currentHash (d + 1) alpha beta = .inr (alpha, beta) := by
    unfold ttProbe
    rw [hmiss]
  have hcond : ¬(game.gameOver = true ∨ hasValidMoves game.currentPlayer game.board = false) := by
    simp [hgo, hmv]
  simp only [alphaBetaSearch, hp, if_neg hcond] at hv ⊢
  cases isMax with
  | true =>
    simp only [if_true] at hv ⊢
    refine ⟨_, ttGet_ttSet _ _ _, ?_, ?_, ?_⟩
    · constructor
      · intro hfl
        by_contra hle
        simp only [Bool.not_eq_true] at hle
        simp only [hle, Bool.false_eq_true, if_false] at hfl
        split at hfl <;> exact absurd hfl (by simp)
      · intro hle
        simp [hle]
    · intro _
      rw [abMaxLoop_beta]
      rfl
    · intro hfalse
      exact absurd hfalse (by simp)
  | false =>
    simp only [Bool.false_eq_true, if_false] at hv ⊢
    have hbeta := abMinLoop_beta Z
      (fun g a b h t => alphaBetaSearch Z aiRootColor d g a b true h t) game currentHash beta
      (getAllPossibleMovesForPlayer game.currentPlayer game.board) .pinf alpha beta tt
      (Val.min_pinf beta).symm
    refine ⟨_, ttGet_ttSet _ _ _, ?_, ?_, ?_⟩
    · constructor
      · intro hfl
        by_contra hle
        simp only [Bool.not_eq_true] at hle
        simp only [hle, Bool.false_eq_true, if_false] at hfl
        split at hfl <;> exact absurd hfl (by simp)
      · intro hle
        simp [hle]
    · intro htrue
      exact absurd htrue (by simp)
    · intro _
      rw [hbeta, Val.leb_min_self hb hv]
      split <;> simp

/-- Board for the C7 scenario: Black 1 on (0,0), White 2 on (5,5). -/
def b7 : Board := fun r c =>
  if r = (0 : Fin 8) ∧ c = (0 : Fin 8) then
    some { color := Color.black, number := 1, promoted := false }
  else if r = (5 : Fin 8) ∧ c = (5 : Fin 8) then
    some { color := Color.white, number := 2, promoted := false }
  else none

/-- Game state of the C7 scenario: board `b7`, Black to move, scores 0. -/
def g7 : GameState :=
  { board := b7, currentPlayer := Color.black, whiteScore := .fin 0,
    blackScore := .fin 0, gameOver := false }

unseal Rat.add Rat.mul Rat.inv Rat.sub Nat.gcd in
/-- Counterexample to C7 as stated: the minimizing node on `g7` searched with
the full window (−∞, ∞) stores its value 0.1 — strictly inside the original
window, where the claim's rule yields `EXACT` — under flag `LOWERBOUND`. -/
theorem C7_counterexample :
    ttGet (alphaBetaSearch Z0 Color.white 1 g7 .ninf .pinf false 0 ([] : TT)).2 0 =
      some { value := Val.fin (1 / 10), depth := 1, flag := Flag.LOWERBOUND } ∧
    Val.ltb .ninf (Val.fin (1 / 10)) = true ∧
    Val.ltb (Val.fin (1 / 10)) .pinf = true ∧
    claimedFlag .ninf .pinf (Val.fin (1 / 10)) = Flag.EXACT ∧
    Flag.LOWERBOUND ≠ Flag.EXACT := by
  refine ⟨by decide, by decide, by decide, by decide, by decide⟩

unseal Rat.add Rat.mul Rat.inv Rat.sub Nat.gcd in
/-- Witness for the amended C7 at the `g7` minimizing node. -/
theorem C7_flag_window_witness :
    ttGet ([] : TT) 0 = none ∧ g7.gameOver = false ∧
    hasValidMoves g7.currentPlayer g7.board = true ∧ (Val.pinf ≠ .nan) ∧
    (alphaBetaSearch Z0 Color.white (0 + 1) g7 .ninf .pinf false 0 ([] : TT)).1 ≠ .nan ∧
    (∃ fl : Flag,
      ttGet (alphaBetaSearch Z0 Color.white (0 + 1) g7 .ninf .pinf false 0 ([] : TT)).2 0 =
        some { value := (alphaBetaSearch Z0 Color.white (0 + 1) g7 .ninf .pinf false 0
                 ([] : TT)).1,
               depth := 0 + 1, flag := fl } ∧
      (fl = .UPPERBOUND ↔
        Val.leb (alphaBetaSearch Z0 Color.white (0 + 1) g7 .ninf .pinf false 0 ([] : TT)).1
          .ninf = true) ∧
      (false = true →
        fl = claimedFlag .ninf .pinf
          (alphaBetaSearch Z0 Color.white (0 + 1) g7 .ninf .pinf false 0 ([] : TT)).1) ∧
      (false = false → fl ≠ .EXACT)) :=
  ⟨by decide, by decide, by decide, by decide, by decide,
    C7_flag_window Z0 Color.white 0 g7 .ninf .pinf false 0 [] (by decide) (by decide)
      (by decide) (by decide) (by decide)⟩

/-! ## Finiteness of search values (towards claim C1) -/

/-- A JS number that is an actual rational (not NaN, not an infinity). -/
def IsFin (v : Val) : Prop := ∃ q : ℚ, v = Val.fin q

/-- Every value stored in the transposition table is finite. -/
def FiniteTT (tt : TT) : Prop := ∀ e ∈ tt, IsFin e.2.value

/-- JS addition of finite numbers is finite. -/
theorem Val.add_fin {a b : Val} (ha : IsFin a) (hb : IsFin b) : IsFin (a.add b) := by
  obtain ⟨p, rfl⟩ := ha
  obtain ⟨q, rfl⟩ := hb
  exact ⟨p + q, rfl⟩

/-- `Math.max` of a finite (or -Infinity) and a finite number is finite. -/
theorem Val.max_fin {a b : Val} (ha : IsFin a ∨ a = .ninf) (hb : IsFin b) :
    IsFin (Val.max a b) := by
  obtain ⟨q, rfl⟩ := hb
  rcases ha with ⟨p, rfl⟩ | rfl
  · unfold Val.max
    rw [if_neg (by simp)]
    split
    · exact ⟨q, rfl⟩
    · exact ⟨p, rfl⟩
  · exact ⟨q, rfl⟩

/-- `Math.min` of a finite (or Infinity) and a finite number is finite. -/
theorem Val.min_fin {a b : Val} (ha : IsFin a ∨ a = .pinf) (hb : IsFin b) :
    IsFin (Val.min a b) := by
  obtain ⟨q, rfl⟩ := hb
  rcases ha with ⟨p, rfl⟩ | rfl
  · unfold Val.min
    rw [if_neg (by simp)]
    split
    · exact ⟨q, rfl⟩
    · exact ⟨p, rfl⟩
  · exact ⟨q, rfl⟩

/-- A successful table lookup returns an entry of the table. -/
theorem ttGet_mem (tt : TT) (h : Nat) (en : TTEntry) (he : ttGet tt h = some en) :
    (h, en) ∈ tt := by
  unfold ttGet at he
  cases hx : List.find? (fun e => e.1 = h) tt with
  | none => rw [hx] at he; cases he
  | some e =>
    rw [hx] at he
    have hpx := List.find?_some hx
    have hmem := List.mem_of_find?_eq_some hx
    cases he
    have h1 : e.1 = h := by simpa using hpx
    have h2 : e = (h, e.2) := by rw [← h1]
    rw [← h2]
    exact hmem

/-- A probe that short-circuits returns the value of a stored entry. -/
theorem ttProbe_inl (tt : TT) (h d : Nat) (a b v : Val)
    (hp : ttProbe tt h d a b = .inl v) :
    ∃ en, ttGet tt h = some en ∧ v = en.value := by
  unfold ttProbe at hp
  cases hg : ttGet tt h with
  | none =>
    simp only [hg] at hp
    exact (Sum.noConfusion hp)
  | some en =>
    simp only [hg] at hp
    refine ⟨en, rfl, ?_⟩
    by_cases h1 : en.depth ≥ d
    · rw [if_pos h1] at hp
      by_cases h2 : en.flag = Flag.EXACT
      · rw [if_pos h2] at hp
        injection hp with h3
        exact h3.symm
      · rw [if_neg h2] at hp
        by_cases h3 : Val.leb (if en.flag = Flag.UPPERBOUND then b.min en.value else b)
            (if en.flag = Flag.LOWERBOUND then a.max en.value else a) = true
        · rw [if_pos h3] at hp
          injection hp with h4
          exact h4.symm
        · rw [if_neg h3] at hp
          simp at hp
    · rw [if_neg h1] at hp
      simp at hp

/-- Storing a finite value preserves table finiteness. -/
theorem FiniteTT_ttSet {tt : TT} {h : Nat} {e : TTEntry}
    (htt : FiniteTT tt) (he : IsFin e.value) : FiniteTT (ttSet tt h e) := by
  unfold FiniteTT ttSet
  intro x hx
  rcases List.mem_cons.mp hx with rfl | hx2
  · exact he
  · exact htt x hx2

/-- A fold whose step preserves finiteness yields a finite value. -/
theorem foldl_fin {α : Type} (l : List α) (f : Val → α → Val)
    (hf : ∀ q : ℚ, ∀ x ∈ l, ∃ r : ℚ, f (Val.fin q) x = Val.fin r) :
    ∀ q : ℚ, ∃ r : ℚ, l.foldl f (Val.fin q) = Val.fin r := by
  induction l with
  | nil => intro q; exact ⟨q, rfl⟩
  | cons x xs ih =>
    intro q
    obtain ⟨r, hr⟩ := hf q x (by simp)
    simp only [List.foldl_cons, hr]
    exact ih (fun q' y hy => hf q' y (by simp [hy])) r

/-- The static evaluation is finite whenever both scores are finite. -/
theorem evaluateBoard_fin (game : GameState) (rc : Color)
    (hw : IsFin game.whiteScore) (hbk : IsFin game.blackScore) :
    IsFin (evaluateBoard game rc) := by
  obtain ⟨qw, hqw⟩ := hw
  obtain ⟨qb, hqb⟩ := hbk
  have hinit : ∃ q0 : ℚ,
      ((if rc = Color.white then game.whiteScore else game.blackScore).add
        (if rc.other = Color.white then game.whiteScore else game.blackScore).neg) =
        Val.fin q0 := by
    cases rc <;> simp [Color.other, hqw, hqb, Val.add, Val.neg]
  obtain ⟨q0, hq0⟩ := hinit
  simp only [evaluateBoard]
  rw [hq0]
  exact foldl_fin boardSquares _
    (fun q x hx => by
      cases hbd : game.board x.1 x.2 with
      | none => exact ⟨q, rfl⟩
      | some piece =>
        by_cases hc : piece.color = rc
        · exact ⟨q + ((if piece.promoted = true then (piece.number : ℚ) * (1 / 2) else 0) +
            (if piece.color = Color.white then ((7 : ℚ) - (x.1.val : ℚ)) * (1 / 10)
             else (x.1.val : ℚ) * (1 / 10))), by simp [hbd, hc, Val.add, Val.neg]⟩
        · exact ⟨q + -((if piece.promoted = true then (piece.number : ℚ) * (1 / 2) else 0) +
            (if piece.color = Color.white then ((7 : ℚ) - (x.1.val : ℚ)) * (1 / 10)
             else (x.1.val : ℚ) * (1 / 10))), by simp [hbd, hc, Val.add, Val.neg]⟩) q0



/-- A generator move simulates to a finite score gain (never the sentinel). -/
theorem generator_gain_fin (c : Color) (b : Board) (m : Move)
    (h : m ∈ getAllPossibleMovesForPlayer c b) :
    IsFin (simulateFullMove m.fromRow m.fromCol m.toRow m.toCol c b).aiScoreGain := by
  obtain ⟨h1, h2, h3⟩ := mem_generator c b m h
  rw [simulateFullMove_success b m.piece c _ _ _ _ h1 h2 h3]
  exact ⟨_, rfl⟩

/-- The hydrated child state keeps finite scores. -/
theorem childState_fin {game : GameState} {sim : SimResult}
    (hw : IsFin game.whiteScore) (hbk : IsFin game.blackScore)
    (hg : IsFin sim.aiScoreGain) :
    IsFin (childState game sim).whiteScore ∧ IsFin (childState game sim).blackScore := by
  dsimp only [childState]
  refine ⟨Val.add_fin hw ?_, Val.add_fin hbk ?_⟩ <;> split <;>
    first | exact hg | exact ⟨0, rfl⟩

/-- When `hasValidMoves` holds the move generator yields at least one move. -/
theorem hasValidMoves_ne_nil (c : Color) (b : Board)
    (h : hasValidMoves c b = true) :
    getAllPossibleMovesForPlayer c b ≠ [] := by
  unfold hasValidMoves at h
  rw [List.any_eq_true] at h
  obtain ⟨rc, hrc, hpred⟩ := h
  cases hb : b rc.1 rc.2 with
  | none =>
    simp only [hb] at hpred
    exact Bool.noConfusion hpred
  | some piece =>
    simp only [hb] at hpred
    obtain ⟨hc, hne⟩ := of_decide_eq_true hpred
    cases hmv : getValidMoves rc.1 rc.2 b with
    | nil => exact absurd hmv hne
    | cons mv rest =>
      apply List.ne_nil_of_mem
        (a := { fromRow := rc.1, fromCol := rc.2, toRow := mv.1, toCol := mv.2, piece := piece })
      unfold getAllPossibleMovesForPlayer
      apply List.mem_flatMap.mpr
      refine ⟨rc, hrc, ?_⟩
      simp only [hb]
      rw [if_pos hc]
      apply List.mem_map.mpr
      exact ⟨mv, by rw [hmv]; exact List.mem_cons_self _ _, rfl⟩

/-- The maximizing loop returns a finite best value (given a finite or
-Infinity seed, a nonempty generator move list and a finiteness-preserving
recursion) and preserves table finiteness. -/
theorem abMaxLoop_fin (Z : ZTable)
    (recurse : GameState → Val → Val → Nat → TT → Val × TT)
    (game : GameState) (ch : Nat)
    (hw : IsFin game.whiteScore) (hbk : IsFin game.blackScore)
    (hrec : ∀ g a b h t, IsFin g.whiteScore → IsFin g.blackScore → FiniteTT t →
      IsFin (recurse g a b h t).1 ∧ FiniteTT (recurse g a b h t).2) :
    ∀ (moves : List Move),
      (∀ m ∈ moves, m ∈ getAllPossibleMovesForPlayer game.currentPlayer game.board) →
      ∀ (bv a b : Val) (t : TT), FiniteTT t →
        (IsFin bv ∨ bv = .ninf) →
        (IsFin bv ∨ moves ≠ []) →
        IsFin (abMaxLoop Z recurse game ch moves bv a b t).1 ∧
        FiniteTT (abMaxLoop Z recurse game ch moves bv a b t).2.2.2 := by
  intro moves
  induction moves with
  | nil =>
    intro _ bv a b t ht hsh hbv
    rcases hbv with hbv | hne
    · exact ⟨hbv, ht⟩
    · exact absurd rfl hne
  | cons m rest ih =>
    intro hmem bv a b t ht hsh _
    simp only [abMaxLoop]
    have hm := hmem m (by simp)
    have hgain := generator_gain_fin game.currentPlayer game.board m hm
    have hcs := childState_fin hw hbk hgain
    have hrec1 := hrec (childState game
        (simulateFullMove m.fromRow m.fromCol m.toRow m.toCol game.currentPlayer game.board))
      a b (nextHashOf Z ch m) t hcs.1 hcs.2 ht
    have hev := Val.add_fin hgain hrec1.1
    have hbv1 := Val.max_fin hsh hev
    split
    · exact ⟨hbv1, hrec1.2⟩
    · exact ih (fun x hx => hmem x (by simp [hx])) _ _ _ _ hrec1.2 (Or.inl hbv1)
        (Or.inl hbv1)

/-- The minimizing loop returns a finite best value and preserves table
finiteness (dual of the maximizing case). -/
theorem abMinLoop_fin (Z : ZTable)
    (recurse : GameState → Val → Val → Nat → TT → Val × TT)
    (game : GameState) (ch : Nat)
    (hw : IsFin game.whiteScore) (hbk : IsFin game.blackScore)
    (hrec : ∀ g a b h t, IsFin g.whiteScore → IsFin g.blackScore → FiniteTT t →
      IsFin (recurse g a b h t).1 ∧ FiniteTT (recurse g a b h t).2) :
    ∀ (moves : List Move),
      (∀ m ∈ moves, m ∈ getAllPossibleMovesForPlayer game.currentPlayer game.board) →
      ∀ (bv a b : Val) (t : TT), FiniteTT t →
        (IsFin bv ∨ bv = .pinf) →
        (IsFin bv ∨ moves ≠ []) →
        IsFin (abMinLoop Z recurse game ch moves bv a b t).1 ∧
        FiniteTT (abMinLoop Z recurse game ch moves bv a b t).2.2.2 := by
  intro moves
  induction moves with
  | nil =>
    intro _ bv a b t ht hsh hbv
    rcases hbv with hbv | hne
    · exact ⟨hbv, ht⟩
    · exact absurd rfl hne
  | cons m rest ih =>
    intro hmem bv a b t ht hsh _
    simp only [abMinLoop]
    have hm := hmem m (by simp)
    have hgain := generator_gain_fin game.currentPlayer game.board m hm
    have hcs := childState_fin hw hbk hgain
    have hrec1 := hrec (childState game
        (simulateFullMove m.fromRow m.fromCol m.toRow m.toCol game.currentPlayer game.board))
      a b (nextHashOf Z ch m) t hcs.1 hcs.2 ht
    have hgneg : IsFin (simulateFullMove m.fromRow m.fromCol m.toRow m.toCol
        game.currentPlayer game.board).aiScoreGain.neg := by
      obtain ⟨q, hq⟩ := hgain
      rw [hq]
      exact ⟨-q, rfl⟩
    have hev := Val.add_fin hgneg hrec1.1
    have hbv1 := Val.min_fin hsh hev
    split
    · exact ⟨hbv1, hrec1.2⟩
    · exact ih (fun x hx => hmem x (by simp [hx])) _ _ _ _ hrec1.2 (Or.inl hbv1)
        (Or.inl hbv1)

/-- `alphaBetaSearch` returns a finite value and preserves table finiteness
whenever the state scores are finite. -/
theorem ab_fin (Z : ZTable) (rc : Color) :
    ∀ (depth : Nat) (game : GameState) (alpha beta : Val) (isMax : Bool)
      (h : Nat) (tt : TT),
      IsFin game.whiteScore → IsFin game.blackScore → FiniteTT tt →
      IsFin (alphaBetaSearch Z rc depth game alpha beta isMax h tt).1 ∧
      FiniteTT (alphaBetaSearch Z rc depth game alpha beta isMax h tt).2 := by
  intro depth
  induction depth with
  | zero =>
    intro game alpha beta isMax h tt hw hbk htt
    simp only [alphaBetaSearch]
    split
    · rename_i v hp
      obtain ⟨en, hen, rfl⟩ := ttProbe_inl tt h 0 alpha beta v hp
      exact ⟨htt _ (ttGet_mem tt h en hen), htt⟩
    · exact ⟨evaluateBoard_fin game rc hw hbk, htt⟩
  | succ d ihd =>
    intro game alpha beta isMax h tt hw hbk htt
    simp only [alphaBetaSearch]
    split
    · rename_i v hp
      obtain ⟨en, hen, rfl⟩ := ttProbe_inl tt h (d + 1) alpha beta v hp
      exact ⟨htt _ (ttGet_mem tt h en hen), htt⟩
    · rename_i ab hp
      split
      · exact ⟨evaluateBoard_fin game rc hw hbk, htt⟩
      · rename_i hcond
        have hmvs : hasValidMoves game.currentPlayer game.board = true := by
          cases hx : hasValidMoves game.currentPlayer game.board
          · exact absurd (Or.inr hx) hcond
          · rfl
        have hne := hasValidMoves_ne_nil game.currentPlayer game.board hmvs
        cases isMax with
        | true =>
          simp only [if_true]
          have hloop := abMaxLoop_fin Z
            (fun g a b h t => alphaBetaSearch Z rc d g a b false h t) game h hw hbk
            (fun g a b h' t' hw' hb' ht' => ihd g a b false h' t' hw' hb' ht')
            (getAllPossibleMovesForPlayer game.currentPlayer game.board) (fun _ hx => hx)
            .ninf ab.1 ab.2 tt htt (Or.inr rfl) (Or.inr hne)
          refine ⟨hloop.1, ?_⟩
          apply FiniteTT_ttSet hloop.2
          exact hloop.1
        | false =>
          simp only [Bool.false_eq_true, if_false]
          have hloop := abMinLoop_fin Z
            (fun g a b h t => alphaBetaSearch Z rc d g a b true h t) game h hw hbk
            (fun g a b h' t' hw' hb' ht' => ihd g a b true h' t' hw' hb' ht')
            (getAllPossibleMovesForPlayer game.currentPlayer game.board) (fun _ hx => hx)
            .pinf ab.1 ab.2 tt htt (Or.inr rfl) (Or.inr hne)
          refine ⟨hloop.1, ?_⟩
          apply FiniteTT_ttSet hloop.2
          exact hloop.1


/-! ## The top-level search always returns a legal move (claim C1) -/

/-- The root valuation of a generator move is finite and preserves table
finiteness. -/
theorem rootMoveValue_fin (Z : ZTable) (game : GameState) (pc : Color) (depth : Nat)
    (rh : Nat) (m : Move) (tt : TT)
    (hm : m ∈ getAllPossibleMovesForPlayer pc game.board)
    (hw : IsFin game.whiteScore) (hbk : IsFin game.blackScore) (htt : FiniteTT tt) :
    IsFin (rootMoveValue Z game pc depth rh m tt).1 ∧
    FiniteTT (rootMoveValue Z game pc depth rh m tt).2 := by
  have hgain := generator_gain_fin pc game.board m hm
  simp only [rootMoveValue]
  split
  · exact ⟨hgain, htt⟩
  · have hcs := childState_fin hw hbk hgain
    have hab := ab_fin Z pc (depth - 1)
      (childState game (simulateFullMove m.fromRow m.fromCol m.toRow m.toCol pc game.board))
      .ninf .pinf false (nextHashOf Z rh m) tt hcs.1 hcs.2 htt
    exact ⟨Val.add_fin hgain hab.1, hab.2⟩

/-- The root move loop either times out or completes with a best move drawn
from the generator; a completed `none` is possible only when the searched
list was empty and no previous candidate existed. -/
theorem rootLoop_result (Z : ZTable) (timer : Nat → Bool) (game : GameState) (pc : Color)
    (depth : Nat) (rh : Nat)
    (hw : IsFin game.whiteScore) (hbk : IsFin game.blackScore) :
    ∀ (ms : List Move),
      (∀ m ∈ ms, m ∈ getAllPossibleMovesForPlayer pc game.board) →
      ∀ (cur : Option Move) (bv : Val) (t : Nat) (tt : TT), FiniteTT tt →
      (cur = none → bv = .ninf) →
      (∀ m, cur = some m → m ∈ getAllPossibleMovesForPlayer pc game.board) →
      match rootLoop Z timer game pc depth rh ms cur bv t tt with
      | .timedOut _ _ => True
      | .completed c _ _ tt2 =>
        (∀ m, c = some m → m ∈ getAllPossibleMovesForPlayer pc game.board) ∧
        (c = none → ms = [] ∧ cur = none) ∧ FiniteTT tt2 := by
  intro ms
  induction ms with
  | nil =>
    intro _ cur bv t tt htt hcur hmem
    simp only [rootLoop]
    exact ⟨hmem, fun hc => ⟨trivial, hc⟩, htt⟩
  | cons m rest ih =>
    intro hms cur bv t tt htt hcur hmem
    simp only [rootLoop]
    by_cases ht : timer t = true
    · rw [if_pos ht]
      trivial
    · rw [if_neg ht]
      have hmv := rootMoveValue_fin Z game pc depth rh m tt (hms m (by simp)) hw hbk htt
      by_cases hlt : Val.ltb bv (rootMoveValue Z game pc depth rh m tt).1 = true
      · rw [if_pos hlt]
        have hrec := ih (fun x hx => hms x (by simp [hx])) (some m)
          (rootMoveValue Z game pc depth rh m tt).1 (t + 1)
          (rootMoveValue Z game pc depth rh m tt).2 hmv.2
          (fun hc => Option.noConfusion hc)
          (fun x hx => by cases hx; exact hms m (by simp))
        cases hres : rootLoop Z timer game pc depth rh rest (some m)
            (rootMoveValue Z game pc depth rh m tt).1 (t + 1)
            (rootMoveValue Z game pc depth rh m tt).2 with
        | timedOut t2 tt2 => trivial
        | completed c bvd t2 tt2 =>
          rw [hres] at hrec
          exact ⟨hrec.1, fun hc => absurd ((hrec.2.1 hc).2) (by simp), hrec.2.2⟩
      · rw [if_neg hlt]
        have hrec := ih (fun x hx => hms x (by simp [hx])) cur bv (t + 1)
          (rootMoveValue Z game pc depth rh m tt).2 hmv.2 hcur hmem
        cases hres : rootLoop Z timer game pc depth rh rest cur bv (t + 1)
            (rootMoveValue Z game pc depth rh m tt).2 with
        | timedOut t2 tt2 => trivial
        | completed c bvd t2 tt2 =>
          rw [hres] at hrec
          refine ⟨hrec.1, ?_, hrec.2.2⟩
          intro hc
          obtain ⟨hrest, hcnone⟩ := hrec.2.1 hc
          obtain ⟨q, hq⟩ := hmv.1
          rw [hcur hcnone, hq] at hlt
          exact absurd rfl hlt

/-- Move ordering never invents moves. -/
theorem prioritize_subset (b : Option Move) (moves : List Move) :
    ∀ m ∈ prioritize b moves, m ∈ moves := by
  intro m hm
  unfold prioritize at hm
  split at hm
  · exact hm
  · split at hm
    · exact hm
    · split at hm
      · exact hm
      · rename_i hget
        rcases List.mem_cons.mp hm with rfl | h2
        · exact List.get?_mem hget
        · exact List.mem_of_mem_eraseIdx h2

/-- Move ordering never empties a nonempty candidate list. -/
theorem prioritize_ne_nil (b : Option Move) (moves : List Move) (h : moves ≠ []) :
    prioritize b moves ≠ [] := by
  unfold prioritize
  split
  · exact h
  · split
    · exact h
    · split
      · exact h
      · exact List.cons_ne_nil _ _

/-- The iterative-deepening loop, seeded with a legal candidate, returns a
legal move whatever the wall clock does. -/
theorem iddfsLoop_mem (Z : ZTable) (timer : Nat → Bool) (game : GameState) (pc : Color)
    (moves : List Move)
    (hmoves : ∀ m ∈ moves, m ∈ getAllPossibleMovesForPlayer pc game.board)
    (hne : moves ≠ [])
    (hw : IsFin game.whiteScore) (hbk : IsFin game.blackScore) :
    ∀ (depths : List Nat) (bm : Move) (bv : Val) (t : Nat) (tt : TT), FiniteTT tt →
      bm ∈ getAllPossibleMovesForPlayer pc game.board →
      ∃ m ∈ getAllPossibleMovesForPlayer pc game.board,
        iddfsLoop Z timer game pc moves depths (some bm) bv t tt = some m := by
  intro depths
  induction depths with
  | nil => intro bm bv t tt htt hbm; exact ⟨bm, hbm, rfl⟩
  | cons depth rest ih =>
    intro bm bv t tt htt hbm
    simp only [iddfsLoop]
    have hsub : ∀ m ∈ prioritize (some bm) moves,
        m ∈ getAllPossibleMovesForPlayer pc game.board :=
      fun m hm => hmoves m (prioritize_subset _ _ m hm)
    have hloop := rootLoop_result Z timer game pc depth
      (calculateZobristKey Z game.board game.currentPlayer) hw hbk
      (prioritize (some bm) moves) hsub none .ninf t tt htt (fun _ => rfl)
      (fun x hx => Option.noConfusion hx)
    cases hres : rootLoop Z timer game pc depth
        (calculateZobristKey Z game.board game.currentPlayer)
        (prioritize (some bm) moves) none .ninf t tt with
    | timedOut t2 tt2 => exact ⟨bm, hbm, rfl⟩
    | completed c bvd t2 tt2 =>
      rw [hres] at hloop
      obtain ⟨hcmem, hcnone, htt2⟩ := hloop
      cases c with
      | none =>
        obtain ⟨hms, -⟩ := hcnone rfl
        exact absurd hms (prioritize_ne_nil _ _ hne)
      | some cm =>
        have hcm := hcmem cm rfl
        show ∃ m ∈ getAllPossibleMovesForPlayer pc game.board,
          (if timer t2 = true then some cm
           else iddfsLoop Z timer game pc moves rest (some cm) bvd (t2 + 1) tt2) = some m
        by_cases ht2 : timer t2 = true
        · rw [if_pos ht2]
          exact ⟨cm, hcm, rfl⟩
        · rw [if_neg ht2]
          exact ih cm bvd (t2 + 1) tt2 htt2 hcm

/-- Claim C1: with finite scores (and the table cleared by the endpoint),
`findBestMoveWithAlphaBeta` returns the no-move result exactly when the side
to move has no legal move, and otherwise returns a move produced by the move
generator for that side — never null, never the invalid sentinel — under
every wall-clock behaviour, including budgets that expire before depth 1
completes (the pre-seeded random candidate is returned then). -/
theorem C1_move_exists (Z : ZTable) (timer : Nat → Bool) (pick : Nat) (game : GameState)
    (hw : IsFin game.whiteScore) (hbk : IsFin game.blackScore) :
    (getAllPossibleMovesForPlayer game.currentPlayer game.board = [] →
      findBestMoveWithAlphaBeta Z timer pick game [] = none) ∧
    (getAllPossibleMovesForPlayer game.currentPlayer game.board ≠ [] →
      ∃ m ∈ getAllPossibleMovesForPlayer game.currentPlayer game.board,
        findBestMoveWithAlphaBeta Z timer pick game [] = some m) := by
  constructor
  · intro h
    simp only [findBestMoveWithAlphaBeta]
    rw [dif_pos h]
  · intro h
    simp only [findBestMoveWithAlphaBeta]
    rw [dif_neg h]
    exact iddfsLoop_mem Z timer game game.currentPlayer
      (getAllPossibleMovesForPlayer game.currentPlayer game.board) (fun _ hx => hx) h hw hbk
      (List.range' 1 MAX_SEARCH_DEPTH)
      ((getAllPossibleMovesForPlayer game.currentPlayer game.board).get
        ⟨pick % (getAllPossibleMovesForPlayer game.currentPlayer game.board).length,
         Nat.mod_lt _ (List.length_pos.mpr h)⟩) .ninf 0 []
      (fun e he => absurd he (List.not_mem_nil e))
      (List.get_mem _ _ _)

/-- Witness board: a single White 3 on (4,4). -/
def bW1 : Board := fun r c =>
  if r = (4 : Fin 8) ∧ c = (4 : Fin 8) then
    some { color := Color.white, number := 3, promoted := false }
  else none

/-- Witness state: board `bW1`, White to move, scores 0. -/
def gW1 : GameState :=
  { board := bW1, currentPlayer := Color.white, whiteScore := .fin 0,
    blackScore := .fin 0, gameOver := false }

/-- Witness for C1 with an always-expired wall clock. -/
theorem C1_move_exists_witness :
    IsFin gW1.whiteScore ∧ IsFin gW1.blackScore ∧
    getAllPossibleMovesForPlayer gW1.currentPlayer gW1.board ≠ [] ∧
    ∃ m ∈ getAllPossibleMovesForPlayer gW1.currentPlayer gW1.board,
      findBestMoveWithAlphaBeta Z0 (fun _ => true) 0 gW1 [] = some m :=
  ⟨⟨0, rfl⟩, ⟨0, rfl⟩, by decide,
    (C1_move_exists Z0 (fun _ => true) 0 gW1 ⟨0, rfl⟩ ⟨0, rfl⟩).2 (by decide)⟩


/-! ## Heap model of the simulation (claim C2)

The JS simulation mutates: it writes cells of `tempBoard`'s row arrays and
flips `movedPiece.promoted` in place. `tempBoard` is built by
`sourceBoard.map(r => r.map(p => p ? { ...p } : null))`, so the row arrays
are fresh by the semantics of `Array.map` (modelled by `HBoard` being a
value) while the piece objects live on a heap of references, modelled
explicitly so the clone-then-mutate discipline is checked, not assumed. -/

/-- The piece-object heap; references are list indices. -/
abbrev PHeap := List Piece

/-- Dereference a piece. -/
def hGet (h : PHeap) (r : Nat) : Option Piece := h.get? r

/-- Overwrite the object behind a reference. -/
def hSet (h : PHeap) (r : Nat) (p : Piece) : PHeap := h.set r p

/-- Allocate a fresh object, returning the new heap and its reference. -/
def hAlloc (h : PHeap) (p : Piece) : PHeap × Nat := (h ++ [p], h.length)

/-- A board whose cells hold piece references. -/
def HBoard := Fin 8 → Fin 8 → Option Nat

/-- Read the piece value at a square through the heap. -/
def readHB (h : PHeap) (b : HBoard) (r c : Fin 8) : Option Piece :=
  match b r c with
  | none => none
  | some ref => hGet h ref

/-- The value board a heap board denotes. -/
def render (h : PHeap) (b : HBoard) : Board := fun r c => readHB h b r c

/-- Write one cell of a (fresh) row array. -/
def hbSet (b : HBoard) (r c : Fin 8) (v : Option Nat) : HBoard :=
  fun r' c' => if r' = r ∧ c' = c then v else b r' c'

/-- One square of `sourceBoard.map(r => r.map(p => p ? { ...p } : null))`:
an occupied source square allocates a clone `{ ...p }`. -/
def copyStep (src : HBoard) (acc : PHeap × HBoard) (rc : Fin 8 × Fin 8) : PHeap × HBoard :=
  match src rc.1 rc.2 with
  | none => (acc.1, hbSet acc.2 rc.1 rc.2 none)
  | some ref =>
    match hGet acc.1 ref with
    | none => (acc.1, hbSet acc.2 rc.1 rc.2 none)
    | some p => ((hAlloc acc.1 p).1, hbSet acc.2 rc.1 rc.2 (some (hAlloc acc.1 p).2))

/-- The row-major deep copy at the head of `simulateFullMove`. -/
def deepCopyBoard (h : PHeap) (src : HBoard) : PHeap × HBoard :=
  boardSquares.foldl (copyStep src) (h, fun _ _ => none)

/-- The simulation result over the heap model. -/
structure SimResultH where
  heap : PHeap
  tempBoard : Option HBoard
  aiScoreGain : Val
  leadsToChoiceForThisPlayer : Bool

/-- `simulateFullMove` over the heap model, mutation for mutation: the deep
copy, the sentinel checks, the `movedPiece = { ...pieceToMove }` clone, the
cell writes, the in-place `movedPiece.promoted = true`, and the two capture
passes (which read and write only `tempBoard`). -/
def simulateFullMoveH (fromRow fromCol toRow toCol : Fin 8) (pc : Color)
    (h : PHeap) (src : HBoard) : SimResultH :=
  let cp := deepCopyBoard h src
  match readHB cp.1 cp.2 fromRow fromCol with
  | none =>
    { heap := cp.1, tempBoard := none, aiScoreGain := .ninf,
      leadsToChoiceForThisPlayer := false }
  | some pieceToMove =>
    if pieceToMove.color ≠ pc then
      { heap := cp.1, tempBoard := none, aiScoreGain := .ninf,
        leadsToChoiceForThisPlayer := false }
    else
      let al := hAlloc cp.1 pieceToMove
      if (cp.2 toRow toCol).isSome then
        { heap := al.1, tempBoard := none, aiScoreGain := .ninf,
          leadsToChoiceForThisPlayer := false }
      else
        let tb1 := hbSet (hbSet cp.2 toRow toCol (some al.2)) fromRow fromCol none
        let srcPiece := readHB al.1 src fromRow fromCol
        let srcUnpromoted : Bool :=
          match srcPiece with
          | some p => !p.promoted
          | none => false
        let st2 :=
          if isPromotionRow pieceToMove.color toRow && srcUnpromoted then
            let h3 := hSet al.1 al.2 { pieceToMove with promoted := true }
            let pr := processPromotion toRow toCol (render h3 tb1)
            (h3, pr.captures.foldl (fun bb rc2 => hbSet bb rc2.1 rc2.2 none) tb1,
             pr.points, pr.leadsToChoice)
          else (al.1, tb1, 0, false)
        let combos := checkCombinationsAroundPositionOnBoard toRow toCol
          (render st2.1 st2.2.1) pc
        let cb :=
          if combos.length > 0 then
            let cap := collectComboCaptures (render st2.1 st2.2.1) pc combos
            (cap.1.foldl (fun bb rc2 => hbSet bb rc2.1 rc2.2 none) st2.2.1, cap.2)
          else (st2.2.1, 0)
        { heap := st2.1, tempBoard := some cb.1,
          aiScoreGain := .fin ((st2.2.2.1 : ℚ) + (cb.2 : ℚ)),
          leadsToChoiceForThisPlayer := st2.2.2.2 }

/-- Well-formed heap board: every cell reference points into the heap
(automatic for JS object references). -/
def wfb (h : PHeap) (b : HBoard) : Bool :=
  boardSquares.all fun rc =>
    match b rc.1 rc.2 with
    | some ref => ref < h.length
    | none => true

/-- Unpacking `wfb` at one square. -/
theorem wfb_ref {h : PHeap} {b : HBoard} (hwf : wfb h b = true) {r c : Fin 8} {ref : Nat}
    (hb : b r c = some ref) : ref < h.length := by
  unfold wfb at hwf
  rw [List.all_eq_true] at hwf
  have hx := hwf (r, c) (mem_boardSquares _)
  simp only [hb] at hx
  exact of_decide_eq_true hx

/-- Allocation never changes existing objects. -/
theorem hGet_append {h : PHeap} (ext : List Piece) {r : Nat} (hr : r < h.length) :
    hGet (h ++ ext) r = hGet h r := by
  unfold hGet
  exact List.get?_append hr

/-- Writing one object leaves the others unchanged. -/
theorem hGet_set_ne {h : PHeap} {i r : Nat} {p : Piece} (hne : r ≠ i) :
    hGet (hSet h i p) r = hGet h r := by
  unfold hGet hSet
  exact List.get?_set_ne p h (fun hx => hne hx.symm)

/-- A copy step only allocates. -/
theorem copyStep_heap (src : HBoard) (acc : PHeap × HBoard) (rc : Fin 8 × Fin 8) :
    ∃ ext, (copyStep src acc rc).1 = acc.1 ++ ext := by
  unfold copyStep
  split
  · exact ⟨[], by simp⟩
  · split
    · exact ⟨[], by simp⟩
    · exact ⟨[_], rfl⟩

/-- The deep copy only allocates: the original heap is a prefix. -/
theorem foldl_copyStep_ext (src : HBoard) :
    ∀ (l : List (Fin 8 × Fin 8)) (acc : PHeap × HBoard),
      ∃ ext, (l.foldl (copyStep src) acc).1 = acc.1 ++ ext := by
  intro l
  induction l with
  | nil => intro acc; exact ⟨[], (List.append_nil _).symm⟩
  | cons x xs ih =>
    intro acc
    obtain ⟨ext1, h1⟩ := copyStep_heap src acc x
    obtain ⟨ext2, h2⟩ := ih (copyStep src acc x)
    refine ⟨ext1 ++ ext2, ?_⟩
    rw [List.foldl_cons, h2, h1, List.append_assoc]

/-- The whole simulation never writes an object that predates it: its only
object write hits the freshly cloned moved piece. -/
theorem simulateFullMoveH_heap (fromRow fromCol toRow toCol : Fin 8) (pc : Color)
    (h : PHeap) (src : HBoard) :
    ∀ rf : Nat, rf < h.length →
      hGet (simulateFullMoveH fromRow fromCol toRow toCol pc h src).heap rf = hGet h rf := by
  intro rf hrf
  obtain ⟨ext1, hext1⟩ := foldl_copyStep_ext src boardSquares (h, (fun _ _ => none))
  have hlen1 : rf < (deepCopyBoard h src).1.length := by
    unfold deepCopyBoard
    rw [hext1]
    simp only [List.length_append]
    omega
  have hg1 : hGet (deepCopyBoard h src).1 rf = hGet h rf := by
    unfold deepCopyBoard
    rw [hext1]
    exact hGet_append ext1 hrf
  simp only [simulateFullMoveH]
  split
  · exact hg1
  · rename_i pieceToMove hpm
    split
    · exact hg1
    · have hg2 : hGet (hAlloc (deepCopyBoard h src).1 pieceToMove).1 rf = hGet h rf := by
        unfold hAlloc
        rw [hGet_append [pieceToMove] hlen1]
        exact hg1
      split
      · exact hg2
      · dsimp only
        split
        · rw [hGet_set_ne (by unfold hAlloc; omega)]
          exact hg2
        · exact hg2

/-- Claim C2: whether the simulation succeeds or fails, every square of the
caller-supplied source board reads the same piece (same color, number and
promoted flag) after `simulateFullMove` as before. -/
theorem C2_source_board_unchanged (fromRow fromCol toRow toCol : Fin 8) (pc : Color)
    (h : PHeap) (src : HBoard) (hwf : wfb h src = true) :
    ∀ r c, readHB (simulateFullMoveH fromRow fromCol toRow toCol pc h src).heap src r c =
      readHB h src r c := by
  intro r c
  unfold readHB
  cases hsrc : src r c with
  | none => rfl
  | some ref =>
    exact simulateFullMoveH_heap fromRow fromCol toRow toCol pc h src ref
      (wfb_ref hwf hsrc)



/-- Witness heap: a White 3 and a Black 4. -/
def hW2 : PHeap := [{ color := Color.white, number := 3, promoted := false },
                    { color := Color.black, number := 4, promoted := false }]

/-- Witness source board: the White 3 on (4,4), the Black 4 on (2,2). -/
def srcW2 : HBoard := fun r c =>
  if r = (4 : Fin 8) ∧ c = (4 : Fin 8) then some 0
  else if r = (2 : Fin 8) ∧ c = (2 : Fin 8) then some 1
  else none

/-- Witness for C2: simulating the White step (4,4) → (3,4). -/
theorem C2_source_board_unchanged_witness :
    wfb hW2 srcW2 = true ∧
    readHB (simulateFullMoveH 4 4 3 4 Color.white hW2 srcW2).heap srcW2 4 4 =
      readHB hW2 srcW2 4 4 ∧
    readHB (simulateFullMoveH 4 4 3 4 Color.white hW2 srcW2).heap srcW2 2 2 =
      readHB hW2 srcW2 2 2 :=
  ⟨by decide, C2_source_board_unchanged 4 4 3 4 Color.white hW2 srcW2 (by decide) 4 4,
    C2_source_board_unchanged 4 4 3 4 Color.white hW2 srcW2 (by decide) 2 2⟩


end Check10
